import Mathlib

/-!
Verification of the serde_bson codec (src/lib.rs, src/ser.rs, src/de.rs,
src/byte.rs, src/error.rs) against its specification.

Machine bytes are modelled as `Nat` (always < 256 where produced), Rust `i32`
and `i64` values as `Int` with explicit two's-complement wrap at the byte
boundary, `f32`/`f64` values as their raw IEEE-754 bit patterns (`Nat`),
Rust panics as `Option`/distinguished error values, and the `BytesMut` /
`CountingBytes` buffers as a `List Nat` instance and a `Nat` instance of one
generic buffer-capability structure, mirroring the `BytesLikeBuf` trait.
-/

/-- Little-endian byte list (4 bytes) of a natural number, truncated mod 2^32.
This is the byte image of `(n as i32).to_le_bytes()` in the source. -/
def leBytes32 (n : Nat) : List Nat :=
  [n % 256, n / 256 % 256, n / 65536 % 256, n / 16777216 % 256]

/-- Little-endian byte list (8 bytes) of a natural number, truncated mod 2^64. -/
def leBytes64 (n : Nat) : List Nat :=
  [n % 256, n / 256 % 256, n / 65536 % 256, n / 16777216 % 256,
   n / 4294967296 % 256, n / 1099511627776 % 256,
   n / 281474976710656 % 256, n / 72057594037927936 % 256]

/-- Reads a little-endian byte list back into a natural number
(`u32::from_le_bytes` / `u64::from_le_bytes`). -/
def leToNat (bs : List Nat) : Nat :=
  bs.foldr (fun b acc => b + 256 * acc) 0

/-- Two's-complement little-endian bytes of an `i32` value. -/
def i32leBytes (n : Int) : List Nat :=
  leBytes32 (n % 4294967296).toNat

/-- Two's-complement little-endian bytes of an `i64` value. -/
def i64leBytes (n : Int) : List Nat :=
  leBytes64 (n % 18446744073709551616).toNat

/-- `i32::from_le_bytes`: reads 4 little-endian bytes as a signed 32-bit value. -/
def int32FromLe (bs : List Nat) : Int :=
  let u := leToNat bs
  if u < 2147483648 then (u : Int) else (u : Int) - 4294967296

/-- `i64::from_le_bytes`: reads 8 little-endian bytes as a signed 64-bit value. -/
def int64FromLe (bs : List Nat) : Int :=
  let u := leToNat bs
  if u < 9223372036854775808 then (u : Int) else (u : Int) - 18446744073709551616

/-- Decimal digits of a positive number, least significant first (helper for
the `itoa`-style integer key formatting in `DocumentKey::write_to_buf`). -/
def decimalRev : Nat → List Nat
  | 0 => []
  | n + 1 => ((n + 1) % 10 + 48) :: decimalRev ((n + 1) / 10)
decreasing_by exact Nat.div_lt_self (Nat.succ_pos n) (by omega)

/-- ASCII decimal representation of a natural number, as written by the
`itoa::Buffer::format` call in `DocumentKey::write_to_buf`. -/
def natToDecimal (n : Nat) : List Nat :=
  if n = 0 then [48] else (decimalRev n).reverse

/-- A UTF-8 continuation byte. -/
def isCont (c : Nat) : Bool := 0x80 ≤ c && c < 0xC0

/-- The constraint on the second byte of a multi-byte UTF-8 sequence headed
by `b` (the four special lead bytes narrow the usual continuation range). -/
def utf8Second (b c1 : Nat) : Bool :=
  if b = 0xE0 then 0xA0 ≤ c1 && c1 < 0xC0
  else if b = 0xED then 0x80 ≤ c1 && c1 < 0xA0
  else if b = 0xF0 then 0x90 ≤ c1 && c1 < 0xC0
  else if b = 0xF4 then 0x80 ≤ c1 && c1 < 0x90
  else isCont c1

/-- Consume the continuation bytes of one multi-byte UTF-8 sequence headed by
lead byte `b`, returning the remainder, or `none` if malformed. -/
def utf8Tail (b : Nat) (rest : List Nat) : Option (List Nat) :=
  if b < 0xC2 then none
  else if b < 0xE0 then
    match rest with
    | c1 :: r => if utf8Second b c1 then some r else none
    | [] => none
  else if b < 0xF0 then
    match rest with
    | c1 :: c2 :: r => if utf8Second b c1 && isCont c2 then some r else none
    | _ => none
  else if b < 0xF5 then
    match rest with
    | c1 :: c2 :: c3 :: r =>
      if utf8Second b c1 && isCont c2 && isCont c3 then some r else none
    | _ => none
  else none

/-- UTF-8 validity, recursing on a fuel bound (one byte at least is consumed
per step, so any fuel above the byte count gives the real answer). -/
def isValidUtf8F : Nat → List Nat → Bool
  | 0, _ => false
  | _ + 1, [] => true
  | fuel + 1, b :: rest =>
    if b < 0x80 then isValidUtf8F fuel rest
    else
      match utf8Tail b rest with
      | some r => isValidUtf8F fuel r
      | none => false

/-- Modelled from the spec: the `simdutf8::basic::from_utf8` validation used
by the tape builder (the crate itself is an external collaborator).  Standard
UTF-8 well-formedness over a byte list. -/
def isValidUtf8 (l : List Nat) : Bool := isValidUtf8F (l.length + 1) l

/-- IEEE-754 widening conversion from an `f32` bit pattern to the `f64` bit
pattern, as performed by the `v as f64` cast in `Serializer::serialize_f32`
(sign preserved, exponent re-biased by 896, mantissa shifted by 29 bits;
subnormals are normalised; infinities and NaNs keep their shifted payload). -/
def f32ToF64bits (b : Nat) : Nat :=
  let s := b / 2147483648 % 2
  let e := b / 8388608 % 256
  let f := b % 8388608
  if e = 255 then
    s * 9223372036854775808 + 2047 * 4503599627370496 + f * 536870912
  else if e = 0 then
    if f = 0 then s * 9223372036854775808
    else
      let k := Nat.log2 f
      s * 9223372036854775808 + (k + 874) * 4503599627370496 + (f - 2 ^ k) * 2 ^ (52 - k)
  else
    s * 9223372036854775808 + (e + 896) * 4503599627370496 + f * 536870912

/-! ## Buffer abstraction (src/byte.rs) -/

/-- The `BytesLikeBuf` trait from src/byte.rs: the capability set a serializer
output sink must provide.  `splitOff` models `split_off(len())` (the only call
site), which leaves the parent untouched and yields a fresh empty child;
`byteGet`/`byteSet` model reading and writing through `byte_mut`. -/
structure BufOps (β : Type) where
  putU8 : β → Nat → β
  putI32 : β → Int → β
  putI64 : β → Int → β
  putF64 : β → Nat → β
  putSlice : β → List Nat → β
  splitOff : β → β × β
  unsplit : β → β → β
  len : β → Nat
  byteGet : β → Nat → Nat
  byteSet : β → Nat → Nat → β

/-- The real `BytesMut` buffer, modelled as a byte list (`f64` payloads are
written as their 8 raw little-endian bit-pattern bytes). -/
def listOps : BufOps (List Nat) where
  putU8 b v := b ++ [v]
  putI32 b n := b ++ i32leBytes n
  putI64 b n := b ++ i64leBytes n
  putF64 b bits := b ++ leBytes64 bits
  putSlice b s := b ++ s
  splitOff b := (b, [])
  unsplit b c := b ++ c
  len b := b.length
  byteGet b i := b.getD i 0
  byteSet b i v := b.set i v

/-- `CountingBytes` from src/byte.rs: every append only bumps a counter,
`split_off` yields a zero counter, `unsplit` adds counters, and `byte_mut`
exposes a scratch byte that always reads 0 and discards writes. -/
def countOps : BufOps Nat where
  putU8 b _ := b + 1
  putI32 b _ := b + 4
  putI64 b _ := b + 8
  putF64 b _ := b + 8
  putSlice b s := b + s.length
  splitOff b := (b, 0)
  unsplit b c := b + c
  len b := b
  byteGet _ _ := 0
  byteSet b _ _ := b

/-! ## Serializer (src/ser.rs, src/error.rs, src/lib.rs) -/

/-- The encode-side `Error` enum from src/error.rs, extended with the two
panic classes of src/ser.rs: `tooLarge` for the oversized-length panics in
`serialize_str`/`serialize_bytes`, and `assertionFailed` for the
`debug_assert_eq!` corruption guard in `terminate_document`. -/
inductive SerErr where
  | notSerializingStruct
  | unsignedIntNotInSpec
  | tooLarge
  | assertionFailed
deriving DecidableEq, Repr

/-- `DocumentKey` from src/ser.rs: a struct field name (static string, as
bytes) or a sequence index. -/
inductive DocumentKey where
  | str (s : List Nat)
  | int (i : Nat)

/-- The byte form of a key as `DocumentKey::write_to_buf` emits it. -/
def DocumentKey.keyBytes : DocumentKey → List Nat
  | .str s => s
  | .int i => natToDecimal i

/-- `DocumentKey::write_to_buf`. -/
def writeToBuf {β : Type} (ops : BufOps β) (k : DocumentKey) (buf : β) : β :=
  match k with
  | .str s => ops.putSlice buf s
  | .int i => ops.putSlice buf (natToDecimal i)

/-- The `write_key_or_error!` macro: writes `typeTag + key + NUL` when a key
is present, otherwise fails with `NotSerializingStruct` leaving the buffer
untouched.  Errors carry the buffer state at the point of failure (modelling
the `&mut` output surviving an early return). -/
def writeKeyOrError {β : Type} (ops : BufOps β) (tag : Nat) (key : Option DocumentKey)
    (output : β) : Except (SerErr × β) β :=
  match key with
  | some k => .ok (ops.putU8 (writeToBuf ops k (ops.putU8 output tag)) 0)
  | none => .error (.notSerializingStruct, output)

/-- `start_document`: split off a fresh sub-buffer at the current end and
reserve 4 zero bytes for the eventual length. -/
def startDocument {β : Type} (ops : BufOps β) (buffer : β) : β × β :=
  let p := ops.splitOff buffer
  (p.1, ops.putI32 p.2 0)

/-- The patch loop of `terminate_document`: for each little-endian length
byte, assert the reserved byte still reads 0 (the `debug_assert_eq!`
corruption guard), then overwrite it. -/
def writeLenLoop {β : Type} (ops : BufOps β) (doc : β) : List Nat → Nat → Option β
  | [], _ => some doc
  | b :: rest, i =>
    if ops.byteGet doc i = 0 then writeLenLoop ops (ops.byteSet doc i b) rest (i + 1)
    else none

/-- `terminate_document`: append the `0x00` terminator, patch the reserved
length field with the final length, and merge the sub-buffer back onto the
original buffer. -/
def terminateDocument {β : Type} (ops : BufOps β) (original doc : β) :
    Except (SerErr × β) β :=
  let doc := ops.putU8 doc 0
  match writeLenLoop ops doc (leBytes32 (ops.len doc)) 0 with
  | some doc => .ok (ops.unsplit original doc)
  | none => .error (.assertionFailed, original)

/-- The value shapes the serializer consumes (the serde data-model subset this
codec supports, minus maps — `serialize_map` is `todo!()` — and enum
variants).  `i8`/`i16`/`i32`/`i64` carry their mathematical value as `Int`;
`f32`/`f64` carry raw IEEE-754 bit patterns; strings and byte slices are byte
lists; `vNone` covers `None`/`()`/unit structs (all routed through
`serialize_none`); unsigned integers and chars carry their payload but are
rejected by the serializer. -/
inductive Value where
  | vBool (b : Bool)
  | vI8 (n : Int)
  | vI16 (n : Int)
  | vI32 (n : Int)
  | vI64 (n : Int)
  | vF32 (bits : Nat)
  | vF64 (bits : Nat)
  | vU8 (n : Nat)
  | vU16 (n : Nat)
  | vU32 (n : Nat)
  | vU64 (n : Nat)
  | vChar (c : Nat)
  | vStr (s : List Nat)
  | vBytes (bs : List Nat)
  | vNone
  | vDoc (fields : List (List Nat × Value))
  | vArr (elems : List Value)

mutual

/-- `Serializer::serialize_*` from src/ser.rs, one branch per shape.
`vI8`/`vI16` inline their delegation to `serialize_i32` (sign extension is
the identity on the carried `Int`), and `vF32` inlines its delegation to
`serialize_f64` via the `as f64` widening.  Container branches follow
`serialize_struct`/`serialize_seq` plus the corresponding
`SerializeStruct`/`SerializeSeq` impls: optional key, `start_document`,
serialize the contents into the sub-buffer, `terminate_document`.  On an
error inside a sub-buffer the child buffer is dropped and the error carries
the parent buffer, as in the source where the split-off `BytesMut` is
dropped during `?`-propagation. -/
def serializeValue {β : Type} (ops : BufOps β) (key : Option DocumentKey) (v : Value)
    (output : β) : Except (SerErr × β) β :=
  match v with
  | .vBool b =>
    match writeKeyOrError ops 0x08 key output with
    | .error e => .error e
    | .ok out => .ok (ops.putU8 out (if b then 1 else 0))
  | .vI8 n =>
    match writeKeyOrError ops 0x10 key output with
    | .error e => .error e
    | .ok out => .ok (ops.putI32 out n)
  | .vI16 n =>
    match writeKeyOrError ops 0x10 key output with
    | .error e => .error e
    | .ok out => .ok (ops.putI32 out n)
  | .vI32 n =>
    match writeKeyOrError ops 0x10 key output with
    | .error e => .error e
    | .ok out => .ok (ops.putI32 out n)
  | .vI64 n =>
    match writeKeyOrError ops 0x12 key output with
    | .error e => .error e
    | .ok out => .ok (ops.putI64 out n)
  | .vF32 bits =>
    match writeKeyOrError ops 0x01 key output with
    | .error e => .error e
    | .ok out => .ok (ops.putF64 out (f32ToF64bits bits))
  | .vF64 bits =>
    match writeKeyOrError ops 0x01 key output with
    | .error e => .error e
    | .ok out => .ok (ops.putF64 out bits)
  | .vU8 _ => .error (.unsignedIntNotInSpec, output)
  | .vU16 _ => .error (.unsignedIntNotInSpec, output)
  | .vU32 _ => .error (.unsignedIntNotInSpec, output)
  | .vU64 _ => .error (.unsignedIntNotInSpec, output)
  | .vChar _ => .error (.unsignedIntNotInSpec, output)
  | .vStr s =>
    match writeKeyOrError ops 0x02 key output with
    | .error e => .error e
    | .ok out =>
      if s.length + 1 ≤ 2147483647 then
        .ok (ops.putU8 (ops.putSlice (ops.putI32 out ((s.length : Int) + 1)) s) 0)
      else .error (.tooLarge, out)
  | .vBytes bs =>
    match writeKeyOrError ops 0x05 key output with
    | .error e => .error e
    | .ok out =>
      if bs.length ≤ 2147483647 then
        .ok (ops.putSlice (ops.putU8 (ops.putI32 out (bs.length : Int)) 0) bs)
      else .error (.tooLarge, out)
  | .vNone =>
    match writeKeyOrError ops 0x0A key output with
    | .error e => .error e
    | .ok out => .ok out
  | .vDoc fields =>
    match (match key with
           | some _ => writeKeyOrError ops 0x03 key output
           | none => .ok output : Except (SerErr × β) β) with
    | .error e => .error e
    | .ok out =>
      let p := startDocument ops out
      match serializeFields ops fields p.2 with
      | .error e => .error (e.1, p.1)
      | .ok doc => terminateDocument ops p.1 doc
  | .vArr elems =>
    match (match key with
           | some _ => writeKeyOrError ops 0x04 key output
           | none => .ok output : Except (SerErr × β) β) with
    | .error e => .error e
    | .ok out =>
      let p := startDocument ops out
      match serializeElems ops 0 elems p.2 with
      | .error e => .error (e.1, p.1)
      | .ok doc => terminateDocument ops p.1 doc

/-- `StructSerializer::serialize_field` iterated over the fields: each value
is serialized into the sub-buffer under its field-name key. -/
def serializeFields {β : Type} (ops : BufOps β) (fields : List (List Nat × Value))
    (doc : β) : Except (SerErr × β) β :=
  match fields with
  | [] => .ok doc
  | (k, v) :: rest =>
    match serializeValue ops (some (.str k)) v doc with
    | .error e => .error e
    | .ok doc => serializeFields ops rest doc

/-- `SeqSerializer::serialize_element` iterated over the elements: each value
is serialized under the decimal form of a running index starting at 0. -/
def serializeElems {β : Type} (ops : BufOps β) (idx : Nat) (elems : List Value)
    (doc : β) : Except (SerErr × β) β :=
  match elems with
  | [] => .ok doc
  | v :: rest =>
    match serializeValue ops (some (.int idx)) v doc with
    | .error e => .error e
    | .ok doc => serializeElems ops (idx + 1) rest doc

end

/-- `serialised_size_of` from src/lib.rs: the counting-sink dry run. -/
def serialisedSizeOf (v : Value) : Except SerErr Nat :=
  match serializeValue countOps none v 0 with
  | .ok n => .ok n
  | .error e => .error e.1

/-- `to_string` from src/lib.rs: the counting pass (for `reserve`) followed by
the real pass into an empty `BytesMut`. -/
def toStringBytes (v : Value) : Except SerErr (List Nat) :=
  match serialisedSizeOf v with
  | .error e => .error e
  | .ok _ =>
    match serializeValue listOps none v [] with
    | .ok b => .ok b
    | .error e => .error e.1

/-! ## Pure byte-level characterisation of the serializer output -/

/-- The type tag the serializer assigns to each shape (§3 of the spec).
Unsigned/char shapes never reach a tag write; their value here is arbitrary. -/
def tagOf : Value → Nat
  | .vBool _ => 0x08
  | .vI8 _ | .vI16 _ | .vI32 _ => 0x10
  | .vI64 _ => 0x12
  | .vF32 _ | .vF64 _ => 0x01
  | .vStr _ => 0x02
  | .vBytes _ => 0x05
  | .vNone => 0x0A
  | .vDoc _ => 0x03
  | .vArr _ => 0x04
  | .vU8 _ | .vU16 _ | .vU32 _ | .vU64 _ | .vChar _ => 0

/-- A complete document byte string built from its element bytes `c`:
4-byte little-endian total length (which counts the length field itself and
the terminator), the elements, the `0x00` terminator. -/
def mkDocBytes (c : List Nat) : List Nat :=
  leBytes32 (c.length + 5) ++ c ++ [0]

mutual

/-- The value payload bytes that follow `typeTag + key + NUL` for each shape
(for containers: the whole nested document). -/
def valueBody : Value → List Nat
  | .vBool b => [if b then 1 else 0]
  | .vI8 n | .vI16 n | .vI32 n => i32leBytes n
  | .vI64 n => i64leBytes n
  | .vF32 bits => leBytes64 (f32ToF64bits bits)
  | .vF64 bits => leBytes64 bits
  | .vStr s => i32leBytes ((s.length : Int) + 1) ++ s ++ [0]
  | .vBytes bs => i32leBytes (bs.length : Int) ++ [0] ++ bs
  | .vNone => []
  | .vDoc fields => mkDocBytes (fieldsBytes fields)
  | .vArr elems => mkDocBytes (elemsBytes 0 elems)
  | .vU8 _ | .vU16 _ | .vU32 _ | .vU64 _ | .vChar _ => []

/-- The concatenated element bytes of a struct's fields. -/
def fieldsBytes : List (List Nat × Value) → List Nat
  | [] => []
  | (k, v) :: rest => (tagOf v :: k ++ 0 :: valueBody v) ++ fieldsBytes rest

/-- The concatenated element bytes of a sequence's elements, keyed by the
decimal form of the running index. -/
def elemsBytes (idx : Nat) : List Value → List Nat
  | [] => []
  | v :: rest => (tagOf v :: natToDecimal idx ++ 0 :: valueBody v) ++ elemsBytes (idx + 1) rest

end

/-- One element as written into a parent buffer: tag, key, NUL, payload. -/
def elementBytes (kb : List Nat) (v : Value) : List Nat :=
  tagOf v :: kb ++ 0 :: valueBody v

mutual

/-- Every (nested) document byte span the serializer produces for a value:
the value's own document when it is a container, plus recursively the
documents of its children. -/
def docSpansV : Value → List (List Nat)
  | .vDoc fields => mkDocBytes (fieldsBytes fields) :: docSpansFields fields
  | .vArr elems => mkDocBytes (elemsBytes 0 elems) :: docSpansElems elems
  | _ => []

/-- Document spans contributed by a struct's fields. -/
def docSpansFields : List (List Nat × Value) → List (List Nat)
  | [] => []
  | (_, v) :: rest => docSpansV v ++ docSpansFields rest

/-- Document spans contributed by a sequence's elements. -/
def docSpansElems : List Value → List (List Nat)
  | [] => []
  | v :: rest => docSpansV v ++ docSpansElems rest

end

/-! ## Tape builder (src/de.rs, decode pass 1) -/

/-- The `Tape` enum from src/de.rs: the flat intermediate representation.
`double` carries the raw `f64` bit pattern. -/
inductive Tape where
  | documentStart
  | documentEnd
  | key (k : List Nat)
  | double (bits : Nat)
  | str (s : List Nat)
  | arrayStart
  | binary (bs : List Nat) (subtype : Nat)
  | boolean (b : Bool)
  | utcDateTime (v : Int)
  | null
  | i32 (v : Int)
  | timestamp (v : Nat)
  | i64 (v : Int)
deriving DecidableEq, Repr

/-- The scan-to-NUL part of the `take_cstring` closure: split the input at the
first `0x00` byte; `none` models the `expect("unterminated c-string")` panic. -/
def takeCStringRaw : List Nat → Option (List Nat × List Nat)
  | [] => none
  | b :: rest =>
    if b = 0 then some ([], rest)
    else (takeCStringRaw rest).map (fun p => (b :: p.1, p.2))

/-- `take_cstring`: scan to the NUL, validate the key as UTF-8 (`none` models
the `from_utf8(...).unwrap()` panic), return the key and the remainder. -/
def takeCString (l : List Nat) : Option (List Nat × List Nat) :=
  match takeCStringRaw l with
  | none => none
  | some (k, rest) => if isValidUtf8 k then some (k, rest) else none

/-- `take_bytes`: take exactly `n` bytes; `none` models the out-of-bounds
slice panic. -/
def takeBytes (n : Nat) (l : List Nat) : Option (List Nat × List Nat) :=
  if n ≤ l.length then some (l.take n, l.drop n) else none

/-- One arm of the `match input[position - 1]` dispatch in `to_tape`:
given the already-consumed tag byte and the remaining input, produce the tape
entries this element pushes and the remaining input after its payload.
`none` models the panics (unterminated key, invalid UTF-8, out-of-range
slice, zero string length).  The final arm mirrors the source's `_ => {}`:
an unsupported tag is silently skipped, the cursor advancing only past the
tag byte itself. -/
def tagStep (tag : Nat) (r : List Nat) : Option (List Tape × List Nat) :=
  if tag = 0x00 then some ([.documentEnd], r)
  else if tag = 0x01 then
    match takeCString r with
    | none => none
    | some (k, r1) =>
      match takeBytes 8 r1 with
      | none => none
      | some (bs, r2) => some ([.key k, .double (leToNat bs)], r2)
  else if tag = 0x02 then
    match takeCString r with
    | none => none
    | some (k, r1) =>
      match takeBytes 4 r1 with
      | none => none
      | some (lenBs, r2) =>
        let len := leToNat lenBs
        if len = 0 then none
        else if r2.length < len - 1 then none
        else
          let sBytes := r2.take (len - 1)
          if isValidUtf8 sBytes then some ([.key k, .str sBytes], r2.drop len)
          else none
  else if tag = 0x03 then
    match takeCString r with
    | none => none
    | some (k, r1) =>
      match takeBytes 4 r1 with
      | none => none
      | some (_, r2) => some ([.key k, .documentStart], r2)
  else if tag = 0x04 then
    match takeCString r with
    | none => none
    | some (k, r1) =>
      match takeBytes 4 r1 with
      | none => none
      | some (_, r2) => some ([.key k, .arrayStart], r2)
  else if tag = 0x05 then
    match takeCString r with
    | none => none
    | some (k, r1) =>
      match takeBytes 4 r1 with
      | none => none
      | some (lenBs, r2) =>
        let len := leToNat lenBs
        match r2 with
        | [] => none
        | subtype :: r3 =>
          if r3.length < len then none
          else some ([.key k, .binary (r3.take len) subtype], r3.drop len)
  else if tag = 0x08 then
    match takeCString r with
    | none => none
    | some (k, r1) =>
      match r1 with
      | [] => none
      | b :: r2 => some ([.key k, .boolean (b == 1)], r2)
  else if tag = 0x09 then
    match takeCString r with
    | none => none
    | some (k, r1) =>
      match takeBytes 8 r1 with
      | none => none
      | some (bs, r2) => some ([.key k, .utcDateTime (int64FromLe bs)], r2)
  else if tag = 0x0A then
    match takeCString r with
    | none => none
    | some (k, r1) => some ([.key k, .null], r1)
  else if tag = 0x10 then
    match takeCString r with
    | none => none
    | some (k, r1) =>
      match takeBytes 4 r1 with
      | none => none
      | some (bs, r2) => some ([.key k, .i32 (int32FromLe bs)], r2)
  else if tag = 0x11 then
    match takeCString r with
    | none => none
    | some (k, r1) =>
      match takeBytes 8 r1 with
      | none => none
      | some (bs, r2) => some ([.key k, .timestamp (leToNat bs)], r2)
  else if tag = 0x12 then
    match takeCString r with
    | none => none
    | some (k, r1) =>
      match takeBytes 8 r1 with
      | none => none
      | some (bs, r2) => some ([.key k, .i64 (int64FromLe bs)], r2)
  else some ([], r)

/-- The scanning loop of `to_tape`: consume a tag byte, dispatch on it via
`tagStep`, append the produced entries, continue on the remaining bytes.
Structurally recursive on a fuel bound (every iteration consumes at least
the tag byte, so any fuel above the byte count is enough; `toTapeLoop`
below instantiates it that way). -/
def toTapeLoopF : Nat → List Nat → Option (List Tape)
  | 0, _ => none
  | _ + 1, [] => some []
  | fuel + 1, tag :: r =>
    match tagStep tag r with
    | none => none
    | some (es, r2) => (toTapeLoopF fuel r2).map (es ++ ·)

/-- The scanning loop at its canonical (always sufficient) fuel. -/
def toTapeLoop (l : List Nat) : Option (List Tape) :=
  toTapeLoopF (l.length + 1) l

/-- `to_tape` from src/de.rs: read the authoritative 4-byte total length,
restrict the scan to bytes `[4, totalLength)`, emit the implicit outermost
`DocumentStart`, then run the scanning loop.  `none` models the slicing
panics on inputs shorter than the header or the declared length. -/
def toTape (data : List Nat) : Option (List Tape) :=
  if 4 ≤ data.length then
    let length := leToNat (data.take 4)
    if 4 ≤ length ∧ length ≤ data.length then
      (toTapeLoop ((data.drop 4).take (length - 4))).map (Tape.documentStart :: ·)
    else none
  else none

/-! ## Tape cursor / deserializer (src/de.rs, decode pass 2) -/

/-- The decode-side `Error` enum from src/de.rs, plus a `fuel` constructor
standing for non-termination of the embedding's fuelled recursion (never
reached when the fuel exceeds the tape length). -/
inductive DErr where
  | unexpectedMapEnd
  | unexpectedKey
  | endOfFile
  | custom (msg : String)
  | malformedMapMissingKey
  | unexpectedEnum
  | fuel
deriving DecidableEq, Repr

/-- Modelled from the spec: the target-type descriptors of the external
value-shape protocol (§6) — the codec's `Deserialize` callers.  One
constructor per shape the round-trippable subset supports. -/
inductive Ty where
  | tBool
  | tI8
  | tI16
  | tI32
  | tI64
  | tF64
  | tStr
  | tBytes
  | tArr (elem : Ty)
  | tDoc (fields : List (List Nat × Ty))

/-- Modelled from the spec: how a typed visitor reacts to `visit_bool`. -/
def visitBool (ty : Ty) (b : Bool) : Except DErr Value :=
  match ty with
  | .tBool => .ok (.vBool b)
  | _ => .error (.custom "invalid type")

/-- Modelled from the spec: how a typed visitor reacts to `visit_i32`
(serde's integer visitors accept any integer visit that fits the target's
range; widening to `i64` always succeeds). -/
def visitI32V (ty : Ty) (n : Int) : Except DErr Value :=
  match ty with
  | .tI8 => if -128 ≤ n ∧ n < 128 then .ok (.vI8 n) else .error (.custom "out of range")
  | .tI16 => if -32768 ≤ n ∧ n < 32768 then .ok (.vI16 n) else .error (.custom "out of range")
  | .tI32 => .ok (.vI32 n)
  | .tI64 => .ok (.vI64 n)
  | _ => .error (.custom "invalid type")

/-- Modelled from the spec: how a typed visitor reacts to `visit_i64`. -/
def visitI64V (ty : Ty) (n : Int) : Except DErr Value :=
  match ty with
  | .tI8 => if -128 ≤ n ∧ n < 128 then .ok (.vI8 n) else .error (.custom "out of range")
  | .tI16 => if -32768 ≤ n ∧ n < 32768 then .ok (.vI16 n) else .error (.custom "out of range")
  | .tI32 =>
    if -2147483648 ≤ n ∧ n < 2147483648 then .ok (.vI32 n) else .error (.custom "out of range")
  | .tI64 => .ok (.vI64 n)
  | _ => .error (.custom "invalid type")

/-- Modelled from the spec: how a typed visitor reacts to `visit_u64`
(raised for `Timestamp` tape entries). -/
def visitU64V (ty : Ty) (n : Nat) : Except DErr Value :=
  match ty with
  | .tI8 => if n < 128 then .ok (.vI8 n) else .error (.custom "out of range")
  | .tI16 => if n < 32768 then .ok (.vI16 n) else .error (.custom "out of range")
  | .tI32 => if n < 2147483648 then .ok (.vI32 n) else .error (.custom "out of range")
  | .tI64 => if n < 9223372036854775808 then .ok (.vI64 n) else .error (.custom "out of range")
  | _ => .error (.custom "invalid type")

/-- Modelled from the spec: `visit_f64` (only an `f64` target accepts it in
this bit-pattern model). -/
def visitF64V (ty : Ty) (bits : Nat) : Except DErr Value :=
  match ty with
  | .tF64 => .ok (.vF64 bits)
  | _ => .error (.custom "invalid type")

/-- Modelled from the spec: `visit_borrowed_str`. -/
def visitStrV (ty : Ty) (s : List Nat) : Except DErr Value :=
  match ty with
  | .tStr => .ok (.vStr s)
  | _ => .error (.custom "invalid type")

/-- Modelled from the spec: `visit_borrowed_bytes` (the binary subtype byte
is dropped, as in `deserialize_any`). -/
def visitBytesV (ty : Ty) (bs : List Nat) : Except DErr Value :=
  match ty with
  | .tBytes => .ok (.vBytes bs)
  | _ => .error (.custom "invalid type")

mutual

/-- The cursor side of decode pass 2.  A sequence target runs
`deserialize_seq` from src/de.rs (skip a leading `ArrayStart` if present,
drive `SeqAccess`, then require a `DocumentEnd`); every other target is
forwarded to `deserialize_any`, whose `match self.next_item()` arms are
mirrored one-to-one — structural entries dispatch to map/seq consumption,
scalar entries to the target visitor, `Key`/`DocumentEnd`/exhaustion to the
corresponding errors.  `fuel` bounds the recursion depth (the source
terminates because the tape shrinks; any fuel above the tape length is
sufficient). -/
def deserialize (fuel : Nat) (ty : Ty) (tape : List Tape) :
    Except DErr (Value × List Tape) :=
  match fuel with
  | 0 => .error .fuel
  | fuel + 1 =>
    match ty with
    | .tArr elemTy =>
      match tape with
      | .arrayStart :: r =>
        match visitSeqElems fuel elemTy r with
        | .error e => .error e
        | .ok (vs, rest) =>
          match rest with
          | .documentEnd :: rest1 => .ok (.vArr vs, rest1)
          | _ => .error .unexpectedMapEnd
      | [] => .error .malformedMapMissingKey
      | _ =>
        match visitSeqElems fuel elemTy tape with
        | .error e => .error e
        | .ok (vs, rest) =>
          match rest with
          | .documentEnd :: rest1 => .ok (.vArr vs, rest1)
          | _ => .error .unexpectedMapEnd
    | _ =>
      match tape with
      | [] => .error .endOfFile
      | .documentStart :: rest =>
        match ty with
        | .tDoc ftys =>
          match visitMapFields fuel ftys rest with
          | .error e => .error e
          | .ok (fvs, rest1) => .ok (.vDoc fvs, rest1)
        | _ => .error (.custom "invalid type")
      | .documentEnd :: _ => .error .unexpectedMapEnd
      | .key _ :: _ => .error .unexpectedKey
      | .double bits :: rest => (visitF64V ty bits).map (·, rest)
      | .str s :: rest => (visitStrV ty s).map (·, rest)
      | .arrayStart :: _ => .error (.custom "invalid type")
      | .binary bs _ :: rest => (visitBytesV ty bs).map (·, rest)
      | .boolean b :: rest => (visitBool ty b).map (·, rest)
      | .utcDateTime n :: rest => (visitI64V ty n).map (·, rest)
      | .null :: _ => .error (.custom "invalid type")
      | .i32 n :: rest => (visitI32V ty n).map (·, rest)
      | .timestamp n :: rest => (visitU64V ty n).map (·, rest)
      | .i64 n :: rest => (visitI64V ty n).map (·, rest)

/-- `MapAccess` from src/de.rs driven by a derived struct visitor (modelled
from the spec: fields are consumed in declared order).  `next_key_seed`
stops at `DocumentEnd`, yields the string of a `Key`, and raises
`MalformedMapMissingKey` for anything else (including tape exhaustion);
`next_value_seed` recursively deserializes the field's value. -/
def visitMapFields (fuel : Nat) (ftys : List (List Nat × Ty)) (tape : List Tape) :
    Except DErr (List (List Nat × Value) × List Tape) :=
  match fuel with
  | 0 => .error .fuel
  | fuel + 1 =>
    match tape with
    | .documentEnd :: rest =>
      match ftys with
      | [] => .ok ([], rest)
      | _ => .error (.custom "missing field")
    | .key k :: rest =>
      match ftys with
      | [] => .error (.custom "unknown field")
      | (fk, fty) :: ftys1 =>
        if k = fk then
          match deserialize fuel fty rest with
          | .error e => .error e
          | .ok (v, rest1) =>
            match visitMapFields fuel ftys1 rest1 with
            | .error e => .error e
            | .ok (fvs, rest2) => .ok ((k, v) :: fvs, rest2)
        else .error (.custom "unexpected field")
    | _ => .error .malformedMapMissingKey

/-- `SeqAccess` from src/de.rs driven by a sequence visitor: stop (without
consuming) at a `DocumentEnd`, otherwise require and discard a `Key` and
recursively deserialize the element; anything else (including exhaustion) is
`MalformedMapMissingKey`. -/
def visitSeqElems (fuel : Nat) (elemTy : Ty) (tape : List Tape) :
    Except DErr (List Value × List Tape) :=
  match fuel with
  | 0 => .error .fuel
  | fuel + 1 =>
    match tape with
    | .documentEnd :: _ => .ok ([], tape)
    | .key _ :: rest =>
      match deserialize fuel elemTy rest with
      | .error e => .error e
      | .ok (v, rest1) =>
        match visitSeqElems fuel elemTy rest1 with
        | .error e => .error e
        | .ok (vs, rest2) => .ok (v :: vs, rest2)
    | _ => .error .malformedMapMissingKey

end

/-- `from_bytes` from src/de.rs: build the tape (a `none` is a tape-builder
panic), then run the typed deserializer over it; leftover tape entries are
ignored, as in the source. -/
def fromBytes (ty : Ty) (data : List Nat) : Option (Except DErr Value) :=
  (toTape data).map (fun tape => (deserialize (2 * tape.length + 2) ty tape).map (·.1))

/-! ## Type/value descriptors and well-formedness -/

/-- A key byte string a Rust `&str` field name can denote: no embedded NUL
(it is written NUL-terminated), valid UTF-8, bytes in range. -/
def keyOk (k : List Nat) : Bool :=
  !(k.contains 0) && isValidUtf8 k && k.all (· < 256)

mutual

/-- Structural equality test for type descriptors. -/
def tyEq : Ty → Ty → Bool
  | .tBool, .tBool => true
  | .tI8, .tI8 => true
  | .tI16, .tI16 => true
  | .tI32, .tI32 => true
  | .tI64, .tI64 => true
  | .tF64, .tF64 => true
  | .tStr, .tStr => true
  | .tBytes, .tBytes => true
  | .tArr a, .tArr b => tyEq a b
  | .tDoc fa, .tDoc fb => tyFieldsEq fa fb
  | _, _ => false

/-- Structural equality test for field-type lists. -/
def tyFieldsEq : List (List Nat × Ty) → List (List Nat × Ty) → Bool
  | [], [] => true
  | (k1, t1) :: r1, (k2, t2) :: r2 => k1 == k2 && tyEq t1 t2 && tyFieldsEq r1 r2
  | _, _ => false

end

mutual

/-- The type descriptor of a value (the `Deserialize` target that matches the
`Serialize` source).  Shapes outside the round-trippable subset are mapped
arbitrarily (they are excluded by `rtOk`). -/
def tyOf : Value → Ty
  | .vBool _ => .tBool
  | .vI8 _ => .tI8
  | .vI16 _ => .tI16
  | .vI32 _ => .tI32
  | .vI64 _ => .tI64
  | .vF64 _ => .tF64
  | .vStr _ => .tStr
  | .vBytes _ => .tBytes
  | .vDoc fields => .tDoc (tyOfFields fields)
  | .vArr [] => .tArr .tI32
  | .vArr (v :: _) => .tArr (tyOf v)
  | _ => .tBool

/-- Field-name/type descriptors of a struct's fields. -/
def tyOfFields : List (List Nat × Value) → List (List Nat × Ty)
  | [] => []
  | (k, v) :: rest => (k, tyOf v) :: tyOfFields rest

end

mutual

/-- The round-trippable values: scalar payloads within their machine ranges,
strings/keys valid UTF-8 without embedded NUL and within the `i32` length
limit, sequences homogeneous in element type, and no shapes the codec
rejects or loses (unsigned, char, `f32`, `None`). -/
def rtOk : Value → Bool
  | .vBool _ => true
  | .vI8 n => decide (-128 ≤ n) && decide (n < 128)
  | .vI16 n => decide (-32768 ≤ n) && decide (n < 32768)
  | .vI32 n => decide (-2147483648 ≤ n) && decide (n < 2147483648)
  | .vI64 n => decide (-9223372036854775808 ≤ n) && decide (n < 9223372036854775808)
  | .vF64 bits => decide (bits < 18446744073709551616)
  | .vStr s => s.all (· < 256) && isValidUtf8 s && decide (s.length + 1 ≤ 2147483647)
  | .vBytes bs => bs.all (· < 256) && decide (bs.length ≤ 2147483647)
  | .vDoc fields => rtOkFields fields
  | .vArr elems => rtOkElems (match elems with | [] => .tI32 | v :: _ => tyOf v) elems
  | _ => false

/-- Round-trippability of a struct's fields (keys must be valid key bytes). -/
def rtOkFields : List (List Nat × Value) → Bool
  | [] => true
  | (k, v) :: rest => keyOk k && rtOk v && rtOkFields rest

/-- Round-trippability of a sequence's elements, all of one element type. -/
def rtOkElems (ty : Ty) : List Value → Bool
  | [] => true
  | v :: rest => rtOk v && tyEq (tyOf v) ty && rtOkElems ty rest

end

/-! ## Expected tape of an encoded value -/

mutual

/-- The tape entries the builder produces for one encoded value (after its
`Key` entry). -/
def tapeCore : Value → List Tape
  | .vBool b => [.boolean b]
  | .vI8 n | .vI16 n | .vI32 n => [.i32 n]
  | .vI64 n => [.i64 n]
  | .vF32 bits => [.double (f32ToF64bits bits)]
  | .vF64 bits => [.double bits]
  | .vStr s => [.str s]
  | .vBytes bs => [.binary bs 0]
  | .vNone => [.null]
  | .vDoc fields => .documentStart :: (tapeFields fields ++ [.documentEnd])
  | .vArr elems => .arrayStart :: (tapeElems 0 elems ++ [.documentEnd])
  | .vU8 _ | .vU16 _ | .vU32 _ | .vU64 _ | .vChar _ => []

/-- Tape entries of a struct's encoded fields. -/
def tapeFields : List (List Nat × Value) → List Tape
  | [] => []
  | (k, v) :: rest => .key k :: (tapeCore v ++ tapeFields rest)

/-- Tape entries of a sequence's encoded elements. -/
def tapeElems (idx : Nat) : List Value → List Tape
  | [] => []
  | v :: rest => .key (natToDecimal idx) :: (tapeCore v ++ tapeElems (idx + 1) rest)

end

/-- The bytes a successful `serializeValue` call appends: the keyed element
when a key is present, the bare document body when not. -/
def expectedBytes (key : Option DocumentKey) (v : Value) : List Nat :=
  match key with
  | some k => elementBytes k.keyBytes v
  | none => valueBody v

/-- Project a real-buffer serializer outcome to the counting view: byte lists
become their lengths. -/
def exMap : Except (SerErr × List Nat) (List Nat) → Except (SerErr × Nat) Nat
  | .ok l => .ok l.length
  | .error (e, l) => .error (e, l.length)

/-! ## Byte-arithmetic round-trip lemmas -/

theorem leBytes32_length (n : Nat) : (leBytes32 n).length = 4 := rfl

theorem leBytes64_length (n : Nat) : (leBytes64 n).length = 8 := rfl

theorem leToNat_leBytes32 (n : Nat) : leToNat (leBytes32 n) = n % 4294967296 := by
  simp only [leBytes32, leToNat, List.foldr]
  omega

theorem leToNat_leBytes64 (n : Nat) : leToNat (leBytes64 n) = n % 18446744073709551616 := by
  simp only [leBytes64, leToNat, List.foldr]
  omega

theorem int32FromLe_i32leBytes (n : Int) (h1 : -2147483648 ≤ n) (h2 : n < 2147483648) :
    int32FromLe (i32leBytes n) = n := by
  simp only [int32FromLe, i32leBytes, leToNat_leBytes32]
  have hmod : (n % 4294967296).toNat % 4294967296 = (n % 4294967296).toNat := by
    apply Nat.mod_eq_of_lt
    omega
  rw [hmod]
  omega

theorem int64FromLe_i64leBytes (n : Int) (h1 : -9223372036854775808 ≤ n)
    (h2 : n < 9223372036854775808) : int64FromLe (i64leBytes n) = n := by
  simp only [int64FromLe, i64leBytes, leToNat_leBytes64]
  have hmod : (n % 18446744073709551616).toNat % 18446744073709551616 =
      (n % 18446744073709551616).toNat := by
    apply Nat.mod_eq_of_lt
    omega
  rw [hmod]
  omega

theorem i32leBytes_length (n : Int) : (i32leBytes n).length = 4 := rfl

theorem i64leBytes_length (n : Int) : (i64leBytes n).length = 8 := rfl

/-! ## Tape-builder helper lemmas -/

theorem takeCStringRaw_eq (l k r : List Nat) (h : takeCStringRaw l = some (k, r)) :
    l = k ++ 0 :: r := by
  induction l generalizing k r with
  | nil => simp [takeCStringRaw] at h
  | cons b t ih =>
    simp only [takeCStringRaw] at h
    by_cases hb : b = 0
    · subst hb
      simp at h
      obtain ⟨hk, hr⟩ := h
      subst hk; subst hr; rfl
    · rw [if_neg hb] at h
      cases ht : takeCStringRaw t with
      | none => rw [ht] at h; simp at h
      | some p =>
        obtain ⟨k1, r1⟩ := p
        rw [ht] at h
        simp at h
        obtain ⟨hk, hr⟩ := h
        subst hk; subst hr
        simp [ih k1 r1 ht]

theorem takeCString_eq (l k r : List Nat) (h : takeCString l = some (k, r)) :
    l = k ++ 0 :: r ∧ isValidUtf8 k = true := by
  simp only [takeCString] at h
  cases ht : takeCStringRaw l with
  | none => rw [ht] at h; simp at h
  | some p =>
    obtain ⟨k1, r1⟩ := p
    rw [ht] at h
    by_cases hv : isValidUtf8 k1
    · simp [hv] at h
      obtain ⟨hk, hr⟩ := h
      subst hk; subst hr
      exact ⟨takeCStringRaw_eq l k1 r1 ht, hv⟩
    · simp [if_neg hv] at h

theorem takeCString_length (l k r : List Nat) (h : takeCString l = some (k, r)) :
    r.length < l.length := by
  have := (takeCString_eq l k r h).1
  subst this
  simp
  omega

theorem takeBytes_eq (n : Nat) (l bs r : List Nat) (h : takeBytes n l = some (bs, r)) :
    bs = l.take n ∧ r = l.drop n ∧ n ≤ l.length := by
  simp only [takeBytes] at h
  by_cases hn : n ≤ l.length
  · simp [hn] at h
    exact ⟨h.1.symm, h.2.symm, hn⟩
  · simp [if_neg hn] at h

theorem takeBytes_length (n : Nat) (l bs r : List Nat) (h : takeBytes n l = some (bs, r)) :
    r.length ≤ l.length := by
  have := (takeBytes_eq n l bs r h).2.1
  subst this
  simp

theorem tagStep_length (tag : Nat) (r : List Nat) (es : List Tape) (r2 : List Nat)
    (h : tagStep tag r = some (es, r2)) : r2.length ≤ r.length := by
  by_cases h0 : tag = 0x00
  · simp [tagStep, h0] at h
    obtain ⟨-, hr⟩ := h
    subst hr
    exact Nat.le_refl _
  by_cases h1 : tag = 0x01
  · simp [tagStep, h1] at h
    cases htc : takeCString r with
    | none =>
      simp only [htc] at h
      exact Option.noConfusion h
    | some p =>
      obtain ⟨k, r1⟩ := p
      simp only [htc] at h
      have hc := takeCString_length r k r1 htc
      cases htb : takeBytes 8 r1 with
      | none =>
        simp only [htb] at h
        exact Option.noConfusion h
      | some q =>
        obtain ⟨bs, rr⟩ := q
        simp only [htb] at h
        have hb := takeBytes_length 8 r1 bs rr htb
        simp at h
        obtain ⟨-, hr⟩ := h
        subst hr
        omega
  by_cases h2 : tag = 0x02
  · simp [tagStep, h2] at h
    cases htc : takeCString r with
    | none =>
      simp only [htc] at h
      exact Option.noConfusion h
    | some p =>
      obtain ⟨k, r1⟩ := p
      simp only [htc] at h
      have hc := takeCString_length r k r1 htc
      cases htb : takeBytes 4 r1 with
      | none =>
        simp only [htb] at h
        exact Option.noConfusion h
      | some q =>
        obtain ⟨lenBs, rr⟩ := q
        simp only [htb] at h
        have hb := takeBytes_length 4 r1 lenBs rr htb
        by_cases hz : leToNat lenBs = 0
        · simp [hz] at h
        by_cases hlen : rr.length < leToNat lenBs - 1
        · simp [hz, hlen] at h
        by_cases hutf : isValidUtf8 (rr.take (leToNat lenBs - 1))
        · simp [hz, hlen, hutf] at h
          obtain ⟨-, hr⟩ := h
          subst hr
          simp
          omega
        · simp [hz, hlen, hutf] at h
  by_cases h3 : tag = 0x03
  · simp [tagStep, h3] at h
    cases htc : takeCString r with
    | none =>
      simp only [htc] at h
      exact Option.noConfusion h
    | some p =>
      obtain ⟨k, r1⟩ := p
      simp only [htc] at h
      have hc := takeCString_length r k r1 htc
      cases htb : takeBytes 4 r1 with
      | none =>
        simp only [htb] at h
        exact Option.noConfusion h
      | some q =>
        obtain ⟨bs, rr⟩ := q
        simp only [htb] at h
        have hb := takeBytes_length 4 r1 bs rr htb
        simp at h
        obtain ⟨-, hr⟩ := h
        subst hr
        omega
  by_cases h4 : tag = 0x04
  · simp [tagStep, h4] at h
    cases htc : takeCString r with
    | none =>
      simp only [htc] at h
      exact Option.noConfusion h
    | some p =>
      obtain ⟨k, r1⟩ := p
      simp only [htc] at h
      have hc := takeCString_length r k r1 htc
      cases htb : takeBytes 4 r1 with
      | none =>
        simp only [htb] at h
        exact Option.noConfusion h
      | some q =>
        obtain ⟨bs, rr⟩ := q
        simp only [htb] at h
        have hb := takeBytes_length 4 r1 bs rr htb
        simp at h
        obtain ⟨-, hr⟩ := h
        subst hr
        omega
  by_cases h5 : tag = 0x05
  · simp [tagStep, h5] at h
    cases htc : takeCString r with
    | none =>
      simp only [htc] at h
      exact Option.noConfusion h
    | some p =>
      obtain ⟨k, r1⟩ := p
      simp only [htc] at h
      have hc := takeCString_length r k r1 htc
      cases htb : takeBytes 4 r1 with
      | none =>
        simp only [htb] at h
        exact Option.noConfusion h
      | some q =>
        obtain ⟨lenBs, rr⟩ := q
        simp only [htb] at h
        have hb := takeBytes_length 4 r1 lenBs rr htb
        cases rr with
        | nil => simp at h
        | cons st r3 =>
          by_cases hlen : r3.length < leToNat lenBs
          · simp [hlen] at h
          · simp [hlen] at h
            obtain ⟨-, hr⟩ := h
            subst hr
            simp at hb ⊢
            omega
  by_cases h8 : tag = 0x08
  · simp [tagStep, h8] at h
    cases htc : takeCString r with
    | none =>
      simp only [htc] at h
      exact Option.noConfusion h
    | some p =>
      obtain ⟨k, r1⟩ := p
      simp only [htc] at h
      have hc := takeCString_length r k r1 htc
      cases r1 with
      | nil => simp at h
      | cons b rr =>
        simp at h
        obtain ⟨-, hr⟩ := h
        subst hr
        simp at hc
        omega
  by_cases h9 : tag = 0x09
  · simp [tagStep, h9] at h
    cases htc : takeCString r with
    | none =>
      simp only [htc] at h
      exact Option.noConfusion h
    | some p =>
      obtain ⟨k, r1⟩ := p
      simp only [htc] at h
      have hc := takeCString_length r k r1 htc
      cases htb : takeBytes 8 r1 with
      | none =>
        simp only [htb] at h
        exact Option.noConfusion h
      | some q =>
        obtain ⟨bs, rr⟩ := q
        simp only [htb] at h
        have hb := takeBytes_length 8 r1 bs rr htb
        simp at h
        obtain ⟨-, hr⟩ := h
        subst hr
        omega
  by_cases hA : tag = 0x0A
  · simp [tagStep, hA] at h
    cases htc : takeCString r with
    | none =>
      simp only [htc] at h
      exact Option.noConfusion h
    | some p =>
      obtain ⟨k, r1⟩ := p
      simp only [htc] at h
      have hc := takeCString_length r k r1 htc
      simp at h
      obtain ⟨-, hr⟩ := h
      subst hr
      omega
  by_cases h10 : tag = 0x10
  · simp [tagStep, h10] at h
    cases htc : takeCString r with
    | none =>
      simp only [htc] at h
      exact Option.noConfusion h
    | some p =>
      obtain ⟨k, r1⟩ := p
      simp only [htc] at h
      have hc := takeCString_length r k r1 htc
      cases htb : takeBytes 4 r1 with
      | none =>
        simp only [htb] at h
        exact Option.noConfusion h
      | some q =>
        obtain ⟨bs, rr⟩ := q
        simp only [htb] at h
        have hb := takeBytes_length 4 r1 bs rr htb
        simp at h
        obtain ⟨-, hr⟩ := h
        subst hr
        omega
  by_cases h11 : tag = 0x11
  · simp [tagStep, h11] at h
    cases htc : takeCString r with
    | none =>
      simp only [htc] at h
      exact Option.noConfusion h
    | some p =>
      obtain ⟨k, r1⟩ := p
      simp only [htc] at h
      have hc := takeCString_length r k r1 htc
      cases htb : takeBytes 8 r1 with
      | none =>
        simp only [htb] at h
        exact Option.noConfusion h
      | some q =>
        obtain ⟨bs, rr⟩ := q
        simp only [htb] at h
        have hb := takeBytes_length 8 r1 bs rr htb
        simp at h
        obtain ⟨-, hr⟩ := h
        subst hr
        omega
  by_cases h12 : tag = 0x12
  · simp [tagStep, h12] at h
    cases htc : takeCString r with
    | none =>
      simp only [htc] at h
      exact Option.noConfusion h
    | some p =>
      obtain ⟨k, r1⟩ := p
      simp only [htc] at h
      have hc := takeCString_length r k r1 htc
      cases htb : takeBytes 8 r1 with
      | none =>
        simp only [htb] at h
        exact Option.noConfusion h
      | some q =>
        obtain ⟨bs, rr⟩ := q
        simp only [htb] at h
        have hb := takeBytes_length 8 r1 bs rr htb
        simp at h
        obtain ⟨-, hr⟩ := h
        subst hr
        omega
  · simp [tagStep, h0, h1, h2, h3, h4, h5, h8, h9, hA, h10, h11, h12] at h
    obtain ⟨-, hr⟩ := h
    subst hr
    exact Nat.le_refl _

/-- The scanning loop's result does not depend on the fuel, as long as the
fuel exceeds the number of remaining bytes (each iteration consumes at least
the tag byte). -/
theorem toTapeLoopF_stable (n : Nat) : ∀ (l : List Nat) (fuel fuel' : Nat),
    l.length ≤ n → l.length < fuel → l.length < fuel' →
    toTapeLoopF fuel l = toTapeLoopF fuel' l := by
  induction n with
  | zero =>
    intro l fuel fuel' hn hf hf'
    match l, hn with
    | [], _ =>
      obtain ⟨f, rfl⟩ : ∃ f, fuel = f + 1 := ⟨fuel - 1, by omega⟩
      obtain ⟨f', rfl⟩ : ∃ f', fuel' = f' + 1 := ⟨fuel' - 1, by omega⟩
      rfl
  | succ n ih =>
    intro l fuel fuel' hn hf hf'
    obtain ⟨f, rfl⟩ : ∃ f, fuel = f + 1 := ⟨fuel - 1, by omega⟩
    obtain ⟨f', rfl⟩ : ∃ f', fuel' = f' + 1 := ⟨fuel' - 1, by omega⟩
    match l, hn, hf, hf' with
    | [], _, _, _ => rfl
    | tag :: r, hn, hf, hf' =>
      simp only [toTapeLoopF]
      cases hts : tagStep tag r with
      | none => rfl
      | some p =>
        obtain ⟨es, r2⟩ := p
        have hlen := tagStep_length tag r es r2 hts
        simp only [List.length_cons] at hn hf hf'
        simp only
        rw [ih r2 f f' (by omega) (by omega) (by omega)]

/-- Unfolding rule for `toTapeLoop` in terms of one `tagStep`. -/
theorem toTapeLoop_cons (tag : Nat) (r : List Nat) :
    toTapeLoop (tag :: r) =
      match tagStep tag r with
      | none => none
      | some (es, r2) => (toTapeLoop r2).map (es ++ ·) := by
  simp only [toTapeLoop, List.length_cons, toTapeLoopF]
  cases hts : tagStep tag r with
  | none => rfl
  | some p =>
    obtain ⟨es, r2⟩ := p
    have hlen := tagStep_length tag r es r2 hts
    simp only
    rw [toTapeLoopF_stable r2.length r2 (r.length + 1) (r2.length + 1) (by omega) (by omega)
      (by omega)]

theorem toTapeLoop_nil : toTapeLoop [] = some [] := rfl


theorem decimalRev_digits (n : Nat) : ∀ b ∈ decimalRev n, 48 ≤ b ∧ b ≤ 57 := by
  induction n using Nat.strong_induction_on with
  | _ n ih =>
    match n with
    | 0 => simp [decimalRev]
    | m + 1 =>
      simp only [decimalRev, List.mem_cons]
      intro b hb
      rcases hb with hb | hb
      · subst hb
        omega
      · exact ih ((m + 1) / 10) (Nat.div_lt_self (Nat.succ_pos m) (by omega)) b hb

theorem natToDecimal_digits (n : Nat) : ∀ b ∈ natToDecimal n, 48 ≤ b ∧ b ≤ 57 := by
  intro b hb
  by_cases h : n = 0
  · simp only [natToDecimal, if_pos h, List.mem_singleton] at hb
    omega
  · simp only [natToDecimal, if_neg h, List.mem_reverse] at hb
    exact decimalRev_digits n b hb

theorem ascii_isValidUtf8F (l : List Nat) : ∀ fuel, l.length < fuel →
    (∀ b ∈ l, b < 128) → isValidUtf8F fuel l = true := by
  induction l with
  | nil =>
    intro fuel hf _
    obtain ⟨f, rfl⟩ : ∃ f, fuel = f + 1 := ⟨fuel - 1, by omega⟩
    rfl
  | cons b t ih =>
    intro fuel hf h
    obtain ⟨f, rfl⟩ : ∃ f, fuel = f + 1 := ⟨fuel - 1, by omega⟩
    have hb : b < 128 := h b (List.mem_cons_self b t)
    simp only [isValidUtf8F, if_pos hb]
    exact ih f (by simp at hf; omega) (fun x hx => h x (List.mem_cons_of_mem b hx))

theorem ascii_isValidUtf8 (l : List Nat) (h : ∀ b ∈ l, b < 128) : isValidUtf8 l = true :=
  ascii_isValidUtf8F l (l.length + 1) (by omega) h

theorem keyOk_natToDecimal (i : Nat) : keyOk (natToDecimal i) = true := by
  have hd := natToDecimal_digits i
  simp only [keyOk, Bool.and_eq_true, Bool.not_eq_true']
  refine ⟨⟨?_, ?_⟩, ?_⟩
  · simp only [List.contains, List.elem_eq_mem, decide_eq_false_iff_not]
    intro hmem
    have := hd 0 hmem
    omega
  · exact ascii_isValidUtf8 _ (fun b hb => by have := hd b hb; omega)
  · rw [List.all_eq_true]
    intro b hb
    have := hd b (by simpa using hb)
    simp only [decide_eq_true_eq]
    omega

theorem takeCStringRaw_append (k rest : List Nat) (h : k.contains 0 = false) :
    takeCStringRaw (k ++ 0 :: rest) = some (k, rest) := by
  induction k with
  | nil => simp [takeCStringRaw]
  | cons b t ih =>
    simp only [List.contains_cons, Bool.or_eq_false_iff, beq_eq_false_iff_ne] at h
    obtain ⟨hb, ht⟩ := h
    simp only [List.cons_append, takeCStringRaw, List.append_eq]
    rw [if_neg (by omega : ¬b = 0), ih ht]
    rfl

theorem takeCString_append (k rest : List Nat) (h : keyOk k = true) :
    takeCString (k ++ 0 :: rest) = some (k, rest) := by
  simp only [keyOk, Bool.and_eq_true, Bool.not_eq_true'] at h
  obtain ⟨⟨hc, hu⟩, -⟩ := h
  simp only [takeCString, takeCStringRaw_append k rest hc, hu, if_pos]

theorem takeBytes_append (l1 l2 : List Nat) : takeBytes l1.length (l1 ++ l2) = some (l1, l2) := by
  simp only [takeBytes, List.length_append, if_pos (by omega : l1.length ≤ l1.length + l2.length)]
  rw [List.take_left, List.drop_left]

/-! ## Tape-builder correctness over encoder output -/

theorem leToNat_i32leBytes_nat (m : Nat) (h : m < 4294967296) :
    leToNat (i32leBytes (m : Int)) = m := by
  simp only [i32leBytes, leToNat_leBytes32]
  omega

theorem scan_docEnd (rest : List Nat) :
    toTapeLoop (0 :: rest) = (toTapeLoop rest).map (fun t => .documentEnd :: t) := by
  rw [toTapeLoop_cons]
  simp [tagStep]

mutual

theorem scanElement (v : Value) (kb rest : List Nat) (hv : rtOk v = true)
    (hk : keyOk kb = true) :
    toTapeLoop (elementBytes kb v ++ rest) =
      (toTapeLoop rest).map (fun t => .key kb :: (tapeCore v ++ t)) := by
  cases v with
  | vBool b =>
    have : elementBytes kb (.vBool b) ++ rest =
        0x08 :: (kb ++ 0 :: ((if b then 1 else 0) :: rest)) := by
      simp [elementBytes, tagOf, valueBody]
    rw [this, toTapeLoop_cons]
    have hts : tagStep 0x08 (kb ++ 0 :: ((if b then 1 else 0) :: rest)) =
        some ([.key kb, .boolean b], rest) := by
      simp only [tagStep]
      norm_num
      rw [takeCString_append _ _ hk]
      cases b <;> simp
    rw [hts]
    simp [tapeCore]
  | vI8 n =>
    simp only [rtOk, Bool.and_eq_true, decide_eq_true_eq] at hv
    obtain ⟨h1, h2⟩ := hv
    have : elementBytes kb (.vI8 n) ++ rest = 0x10 :: (kb ++ 0 :: (i32leBytes n ++ rest)) := by
      simp [elementBytes, tagOf, valueBody]
    rw [this, toTapeLoop_cons]
    have hts : tagStep 0x10 (kb ++ 0 :: (i32leBytes n ++ rest)) =
        some ([.key kb, .i32 n], rest) := by
      simp only [tagStep]
      norm_num
      rw [takeCString_append _ _ hk]
      simp only
      rw [show (4 : Nat) = (i32leBytes n).length from (i32leBytes_length n).symm,
        takeBytes_append]
      simp only
      rw [int32FromLe_i32leBytes n (by omega) (by omega)]
    rw [hts]
    simp [tapeCore]
  | vI16 n =>
    simp only [rtOk, Bool.and_eq_true, decide_eq_true_eq] at hv
    obtain ⟨h1, h2⟩ := hv
    have : elementBytes kb (.vI16 n) ++ rest = 0x10 :: (kb ++ 0 :: (i32leBytes n ++ rest)) := by
      simp [elementBytes, tagOf, valueBody]
    rw [this, toTapeLoop_cons]
    have hts : tagStep 0x10 (kb ++ 0 :: (i32leBytes n ++ rest)) =
        some ([.key kb, .i32 n], rest) := by
      simp only [tagStep]
      norm_num
      rw [takeCString_append _ _ hk]
      simp only
      rw [show (4 : Nat) = (i32leBytes n).length from (i32leBytes_length n).symm,
        takeBytes_append]
      simp only
      rw [int32FromLe_i32leBytes n (by omega) (by omega)]
    rw [hts]
    simp [tapeCore]
  | vI32 n =>
    simp only [rtOk, Bool.and_eq_true, decide_eq_true_eq] at hv
    obtain ⟨h1, h2⟩ := hv
    have : elementBytes kb (.vI32 n) ++ rest = 0x10 :: (kb ++ 0 :: (i32leBytes n ++ rest)) := by
      simp [elementBytes, tagOf, valueBody]
    rw [this, toTapeLoop_cons]
    have hts : tagStep 0x10 (kb ++ 0 :: (i32leBytes n ++ rest)) =
        some ([.key kb, .i32 n], rest) := by
      simp only [tagStep]
      norm_num
      rw [takeCString_append _ _ hk]
      simp only
      rw [show (4 : Nat) = (i32leBytes n).length from (i32leBytes_length n).symm,
        takeBytes_append]
      simp only
      rw [int32FromLe_i32leBytes n (by omega) (by omega)]
    rw [hts]
    simp [tapeCore]
  | vI64 n =>
    simp only [rtOk, Bool.and_eq_true, decide_eq_true_eq] at hv
    obtain ⟨h1, h2⟩ := hv
    have : elementBytes kb (.vI64 n) ++ rest = 0x12 :: (kb ++ 0 :: (i64leBytes n ++ rest)) := by
      simp [elementBytes, tagOf, valueBody]
    rw [this, toTapeLoop_cons]
    have hts : tagStep 0x12 (kb ++ 0 :: (i64leBytes n ++ rest)) =
        some ([.key kb, .i64 n], rest) := by
      simp only [tagStep]
      norm_num
      rw [takeCString_append _ _ hk]
      simp only
      rw [show (8 : Nat) = (i64leBytes n).length from (i64leBytes_length n).symm,
        takeBytes_append]
      simp only
      rw [int64FromLe_i64leBytes n (by omega) (by omega)]
    rw [hts]
    simp [tapeCore]
  | vF32 bits => simp [rtOk] at hv
  | vF64 bits =>
    simp only [rtOk, decide_eq_true_eq] at hv
    have : elementBytes kb (.vF64 bits) ++ rest =
        0x01 :: (kb ++ 0 :: (leBytes64 bits ++ rest)) := by
      simp [elementBytes, tagOf, valueBody]
    rw [this, toTapeLoop_cons]
    have hts : tagStep 0x01 (kb ++ 0 :: (leBytes64 bits ++ rest)) =
        some ([.key kb, .double bits], rest) := by
      simp only [tagStep]
      norm_num
      rw [takeCString_append _ _ hk]
      simp only
      rw [show (8 : Nat) = (leBytes64 bits).length from (leBytes64_length bits).symm,
        takeBytes_append]
      simp only
      rw [leToNat_leBytes64, Nat.mod_eq_of_lt hv]
    rw [hts]
    simp [tapeCore]
  | vU8 n => simp [rtOk] at hv
  | vU16 n => simp [rtOk] at hv
  | vU32 n => simp [rtOk] at hv
  | vU64 n => simp [rtOk] at hv
  | vChar c => simp [rtOk] at hv
  | vNone => simp [rtOk] at hv
  | vStr s =>
    simp only [rtOk, Bool.and_eq_true, decide_eq_true_eq] at hv
    obtain ⟨⟨hall, hutf⟩, hlen⟩ := hv
    have : elementBytes kb (.vStr s) ++ rest =
        0x02 :: (kb ++ 0 :: (i32leBytes ((s.length : Int) + 1) ++ ((s ++ [0]) ++ rest))) := by
      simp [elementBytes, tagOf, valueBody]
    rw [this, toTapeLoop_cons]
    have hts : tagStep 0x02 (kb ++ 0 :: (i32leBytes ((s.length : Int) + 1) ++ ((s ++ [0]) ++ rest))) =
        some ([.key kb, .str s], rest) := by
      simp only [tagStep]
      norm_num
      rw [takeCString_append _ _ hk]
      simp only
      rw [show (4 : Nat) = (i32leBytes ((s.length : Int) + 1)).length from
        (i32leBytes_length _).symm, takeBytes_append]
      simp only
      have hlen' : leToNat (i32leBytes ((s.length : Int) + 1)) = s.length + 1 := by
        rw [show ((s.length : Int) + 1) = ((s.length + 1 : Nat) : Int) by push_cast; ring]
        exact leToNat_i32leBytes_nat (s.length + 1) (by omega)
      rw [hlen']
      rw [if_neg (by omega : ¬s.length + 1 = 0)]
      simp only [Nat.add_sub_cancel, List.append_assoc, List.singleton_append]
      have hr2len : ¬(s ++ 0 :: rest).length < s.length := by
        simp
      rw [if_neg hr2len]
      have htake : (s ++ 0 :: rest).take s.length = s := List.take_left s (0 :: rest)
      have hdrop : (s ++ 0 :: rest).drop (s.length + 1) = rest := by
        rw [show s ++ 0 :: rest = (s ++ [0]) ++ rest by simp,
          List.drop_left' (by simp : (s ++ [0]).length = s.length + 1)]
      rw [htake, hdrop, if_pos hutf]
    rw [hts]
    simp [tapeCore]
  | vBytes bs =>
    simp only [rtOk, Bool.and_eq_true, decide_eq_true_eq] at hv
    obtain ⟨hall, hlen⟩ := hv
    have : elementBytes kb (.vBytes bs) ++ rest =
        0x05 :: (kb ++ 0 :: (i32leBytes (bs.length : Int) ++ (0 :: (bs ++ rest)))) := by
      simp [elementBytes, tagOf, valueBody]
    rw [this, toTapeLoop_cons]
    have hts : tagStep 0x05 (kb ++ 0 :: (i32leBytes (bs.length : Int) ++ (0 :: (bs ++ rest)))) =
        some ([.key kb, .binary bs 0], rest) := by
      simp only [tagStep]
      norm_num
      rw [takeCString_append _ _ hk]
      simp only
      rw [show (4 : Nat) = (i32leBytes (bs.length : Int)).length from
        (i32leBytes_length _).symm, takeBytes_append]
      simp only
      rw [leToNat_i32leBytes_nat bs.length (by omega)]
      rw [if_neg (by simp : ¬(bs ++ rest).length < bs.length)]
      rw [List.take_left' rfl, List.drop_left' rfl]
    rw [hts]
    simp [tapeCore]
  | vDoc fields =>
    simp only [rtOk] at hv
    have : elementBytes kb (.vDoc fields) ++ rest =
        0x03 :: (kb ++ 0 :: (leBytes32 ((fieldsBytes fields).length + 5) ++
          (fieldsBytes fields ++ (0 :: rest)))) := by
      simp [elementBytes, tagOf, valueBody, mkDocBytes]
    rw [this, toTapeLoop_cons]
    have hts : tagStep 0x03 (kb ++ 0 :: (leBytes32 ((fieldsBytes fields).length + 5) ++
        (fieldsBytes fields ++ (0 :: rest)))) =
        some ([.key kb, .documentStart], fieldsBytes fields ++ (0 :: rest)) := by
      simp only [tagStep]
      norm_num
      rw [takeCString_append _ _ hk]
      simp only
      rw [show (4 : Nat) = (leBytes32 ((fieldsBytes fields).length + 5)).length from
        (leBytes32_length _).symm, takeBytes_append]
    rw [hts]
    simp only
    rw [scanFields fields (0 :: rest) hv, scan_docEnd]
    cases toTapeLoop rest <;> simp [tapeCore]
  | vArr elems =>
    simp only [rtOk] at hv
    have : elementBytes kb (.vArr elems) ++ rest =
        0x04 :: (kb ++ 0 :: (leBytes32 ((elemsBytes 0 elems).length + 5) ++
          (elemsBytes 0 elems ++ (0 :: rest)))) := by
      simp [elementBytes, tagOf, valueBody, mkDocBytes]
    rw [this, toTapeLoop_cons]
    have hts : tagStep 0x04 (kb ++ 0 :: (leBytes32 ((elemsBytes 0 elems).length + 5) ++
        (elemsBytes 0 elems ++ (0 :: rest)))) =
        some ([.key kb, .arrayStart], elemsBytes 0 elems ++ (0 :: rest)) := by
      simp only [tagStep]
      norm_num
      rw [takeCString_append _ _ hk]
      simp only
      rw [show (4 : Nat) = (leBytes32 ((elemsBytes 0 elems).length + 5)).length from
        (leBytes32_length _).symm, takeBytes_append]
    rw [hts]
    simp only
    rw [scanElems 0 elems _ (0 :: rest) hv, scan_docEnd]
    cases toTapeLoop rest <;> simp [tapeCore]

theorem scanFields (fs : List (List Nat × Value)) (rest : List Nat)
    (hf : rtOkFields fs = true) :
    toTapeLoop (fieldsBytes fs ++ rest) =
      (toTapeLoop rest).map (fun t => tapeFields fs ++ t) := by
  cases fs with
  | nil =>
    simp only [fieldsBytes, List.nil_append, tapeFields]
    cases toTapeLoop rest <;> simp
  | cons p fs =>
    obtain ⟨k, v⟩ := p
    simp only [rtOkFields, Bool.and_eq_true] at hf
    obtain ⟨⟨hk, hv⟩, hfs⟩ := hf
    have : fieldsBytes ((k, v) :: fs) ++ rest = elementBytes k v ++ (fieldsBytes fs ++ rest) := by
      simp [fieldsBytes, elementBytes]
    rw [this, scanElement v k (fieldsBytes fs ++ rest) hv hk, scanFields fs rest hfs]
    cases toTapeLoop rest <;> simp [tapeFields]

theorem scanElems (idx : Nat) (es : List Value) (ty : Ty) (rest : List Nat)
    (he : rtOkElems ty es = true) :
    toTapeLoop (elemsBytes idx es ++ rest) =
      (toTapeLoop rest).map (fun t => tapeElems idx es ++ t) := by
  cases es with
  | nil =>
    simp only [elemsBytes, List.nil_append, tapeElems]
    cases toTapeLoop rest <;> simp
  | cons v es =>
    simp only [rtOkElems, Bool.and_eq_true] at he
    obtain ⟨⟨hv, -⟩, hes⟩ := he
    have : elemsBytes idx (v :: es) ++ rest =
        elementBytes (natToDecimal idx) v ++ (elemsBytes (idx + 1) es ++ rest) := by
      simp [elemsBytes, elementBytes]
    rw [this, scanElement v (natToDecimal idx) (elemsBytes (idx + 1) es ++ rest) hv
      (keyOk_natToDecimal idx), scanElems (idx + 1) es ty rest hes]
    cases toTapeLoop rest <;> simp [tapeElems]

end

/-! ## Serializer output characterisation -/

theorem writeToBuf_list (k : DocumentKey) (buf : List Nat) :
    writeToBuf listOps k buf = buf ++ k.keyBytes := by
  cases k <;> rfl

theorem writeKeyOrError_some (tag : Nat) (k : DocumentKey) (buf : List Nat) :
    writeKeyOrError listOps tag (some k) buf = .ok (buf ++ tag :: (k.keyBytes ++ [0])) := by
  simp only [writeKeyOrError]
  rw [writeToBuf_list]
  simp [listOps]

theorem writeKeyOrError_none (tag : Nat) (buf : List Nat) :
    writeKeyOrError listOps tag none buf = .error (.notSerializingStruct, buf) := rfl

theorem writeLenLoop_zeros (e : List Nat) (b0 b1 b2 b3 : Nat) :
    writeLenLoop listOps (0 :: 0 :: 0 :: 0 :: e) [b0, b1, b2, b3] 0 =
      some (b0 :: b1 :: b2 :: b3 :: e) := by
  simp [writeLenLoop, listOps, List.getD, List.set]

theorem terminate_list (out c : List Nat) :
    terminateDocument listOps out (0 :: 0 :: 0 :: 0 :: c) = .ok (out ++ mkDocBytes c) := by
  have h1 : listOps.putU8 (0 :: 0 :: 0 :: 0 :: c) 0 = 0 :: 0 :: 0 :: 0 :: (c ++ [0]) := by
    simp [listOps]
  simp only [terminateDocument, h1]
  have h2 : listOps.len (0 :: 0 :: 0 :: 0 :: (c ++ [0])) = c.length + 5 := by
    simp [listOps]
  rw [h2]
  have h3 : leBytes32 (c.length + 5) = [(c.length + 5) % 256, (c.length + 5) / 256 % 256,
      (c.length + 5) / 65536 % 256, (c.length + 5) / 16777216 % 256] := rfl
  rw [h3, writeLenLoop_zeros]
  simp [listOps, mkDocBytes, leBytes32]

theorem startDocument_list (buf : List Nat) :
    startDocument listOps buf = (buf, [0, 0, 0, 0]) := rfl


mutual

theorem serValue_ok (v : Value) (key : Option DocumentKey) (buf res : List Nat)
    (h : serializeValue listOps key v buf = .ok res) :
    res = buf ++ expectedBytes key v := by
  cases v with
  | vBool b =>
    cases key with
    | none => simp [serializeValue, writeKeyOrError_none] at h
    | some k =>
      simp only [serializeValue, writeKeyOrError_some] at h
      simp at h
      subst h
      simp [expectedBytes, elementBytes, tagOf, valueBody, listOps]
  | vI8 n =>
    cases key with
    | none => simp [serializeValue, writeKeyOrError_none] at h
    | some k =>
      simp only [serializeValue, writeKeyOrError_some] at h
      simp at h
      subst h
      simp [expectedBytes, elementBytes, tagOf, valueBody, listOps]
  | vI16 n =>
    cases key with
    | none => simp [serializeValue, writeKeyOrError_none] at h
    | some k =>
      simp only [serializeValue, writeKeyOrError_some] at h
      simp at h
      subst h
      simp [expectedBytes, elementBytes, tagOf, valueBody, listOps]
  | vI32 n =>
    cases key with
    | none => simp [serializeValue, writeKeyOrError_none] at h
    | some k =>
      simp only [serializeValue, writeKeyOrError_some] at h
      simp at h
      subst h
      simp [expectedBytes, elementBytes, tagOf, valueBody, listOps]
  | vI64 n =>
    cases key with
    | none => simp [serializeValue, writeKeyOrError_none] at h
    | some k =>
      simp only [serializeValue, writeKeyOrError_some] at h
      simp at h
      subst h
      simp [expectedBytes, elementBytes, tagOf, valueBody, listOps]
  | vF32 bits =>
    cases key with
    | none => simp [serializeValue, writeKeyOrError_none] at h
    | some k =>
      simp only [serializeValue, writeKeyOrError_some] at h
      simp at h
      subst h
      simp [expectedBytes, elementBytes, tagOf, valueBody, listOps]
  | vF64 bits =>
    cases key with
    | none => simp [serializeValue, writeKeyOrError_none] at h
    | some k =>
      simp only [serializeValue, writeKeyOrError_some] at h
      simp at h
      subst h
      simp [expectedBytes, elementBytes, tagOf, valueBody, listOps]
  | vU8 n => simp [serializeValue] at h
  | vU16 n => simp [serializeValue] at h
  | vU32 n => simp [serializeValue] at h
  | vU64 n => simp [serializeValue] at h
  | vChar c => simp [serializeValue] at h
  | vNone =>
    cases key with
    | none => simp [serializeValue, writeKeyOrError_none] at h
    | some k =>
      simp only [serializeValue, writeKeyOrError_some] at h
      simp at h
      subst h
      simp [expectedBytes, elementBytes, tagOf, valueBody, listOps]
  | vStr s =>
    cases key with
    | none => simp [serializeValue, writeKeyOrError_none] at h
    | some k =>
      simp only [serializeValue, writeKeyOrError_some] at h
      by_cases hle : s.length + 1 ≤ 2147483647
      · rw [if_pos hle] at h
        simp at h
        subst h
        simp [expectedBytes, elementBytes, tagOf, valueBody, listOps]
      · rw [if_neg hle] at h
        simp at h
  | vBytes bs =>
    cases key with
    | none => simp [serializeValue, writeKeyOrError_none] at h
    | some k =>
      simp only [serializeValue, writeKeyOrError_some] at h
      by_cases hle : bs.length ≤ 2147483647
      · rw [if_pos hle] at h
        simp at h
        subst h
        simp [expectedBytes, elementBytes, tagOf, valueBody, listOps]
      · rw [if_neg hle] at h
        simp at h
  | vDoc fields =>
    cases key with
    | none =>
      simp only [serializeValue, startDocument_list] at h
      cases hsf : serializeFields listOps fields [0, 0, 0, 0] with
      | error e =>
        simp only [hsf] at h
        exact absurd h (by simp)
      | ok doc1 =>
        simp only [hsf] at h
        have hdoc1 := serFields_ok fields [0, 0, 0, 0] doc1 hsf
        rw [show ([0, 0, 0, 0] : List Nat) ++ fieldsBytes fields =
          0 :: 0 :: 0 :: 0 :: fieldsBytes fields from rfl] at hdoc1
        rw [hdoc1, terminate_list] at h
        simp at h
        subst h
        simp [expectedBytes, valueBody]
    | some k =>
      simp only [serializeValue, writeKeyOrError_some, startDocument_list] at h
      cases hsf : serializeFields listOps fields [0, 0, 0, 0] with
      | error e =>
        simp only [hsf] at h
        exact absurd h (by simp)
      | ok doc1 =>
        simp only [hsf] at h
        have hdoc1 := serFields_ok fields [0, 0, 0, 0] doc1 hsf
        rw [show ([0, 0, 0, 0] : List Nat) ++ fieldsBytes fields =
          0 :: 0 :: 0 :: 0 :: fieldsBytes fields from rfl] at hdoc1
        rw [hdoc1, terminate_list] at h
        simp at h
        subst h
        simp [expectedBytes, elementBytes, tagOf, valueBody]
  | vArr elems =>
    cases key with
    | none =>
      simp only [serializeValue, startDocument_list] at h
      cases hse : serializeElems listOps 0 elems [0, 0, 0, 0] with
      | error e =>
        simp only [hse] at h
        exact absurd h (by simp)
      | ok doc1 =>
        simp only [hse] at h
        have hdoc1 := serElems_ok 0 elems [0, 0, 0, 0] doc1 hse
        rw [show ([0, 0, 0, 0] : List Nat) ++ elemsBytes 0 elems =
          0 :: 0 :: 0 :: 0 :: elemsBytes 0 elems from rfl] at hdoc1
        rw [hdoc1, terminate_list] at h
        simp at h
        subst h
        simp [expectedBytes, valueBody]
    | some k =>
      simp only [serializeValue, writeKeyOrError_some, startDocument_list] at h
      cases hse : serializeElems listOps 0 elems [0, 0, 0, 0] with
      | error e =>
        simp only [hse] at h
        exact absurd h (by simp)
      | ok doc1 =>
        simp only [hse] at h
        have hdoc1 := serElems_ok 0 elems [0, 0, 0, 0] doc1 hse
        rw [show ([0, 0, 0, 0] : List Nat) ++ elemsBytes 0 elems =
          0 :: 0 :: 0 :: 0 :: elemsBytes 0 elems from rfl] at hdoc1
        rw [hdoc1, terminate_list] at h
        simp at h
        subst h
        simp [expectedBytes, elementBytes, tagOf, valueBody]

theorem serFields_ok (fs : List (List Nat × Value)) (doc res : List Nat)
    (h : serializeFields listOps fs doc = .ok res) : res = doc ++ fieldsBytes fs := by
  cases fs with
  | nil =>
    simp [serializeFields] at h
    subst h
    simp [fieldsBytes]
  | cons p fs =>
    obtain ⟨k, v⟩ := p
    simp only [serializeFields] at h
    cases hsv : serializeValue listOps (some (.str k)) v doc with
    | error e =>
      simp only [hsv] at h
      exact absurd h (by simp)
    | ok doc1 =>
      simp only [hsv] at h
      have h1 := serValue_ok v (some (.str k)) doc doc1 hsv
      have h2 := serFields_ok fs doc1 res h
      rw [h2, h1]
      simp [fieldsBytes, elementBytes, expectedBytes, DocumentKey.keyBytes]

theorem serElems_ok (idx : Nat) (es : List Value) (doc res : List Nat)
    (h : serializeElems listOps idx es doc = .ok res) : res = doc ++ elemsBytes idx es := by
  cases es with
  | nil =>
    simp [serializeElems] at h
    subst h
    simp [elemsBytes]
  | cons v es =>
    simp only [serializeElems] at h
    cases hsv : serializeValue listOps (some (.int idx)) v doc with
    | error e =>
      simp only [hsv] at h
      exact absurd h (by simp)
    | ok doc1 =>
      simp only [hsv] at h
      have h1 := serValue_ok v (some (.int idx)) doc doc1 hsv
      have h2 := serElems_ok (idx + 1) es doc1 res h
      rw [h2, h1]
      simp [elemsBytes, elementBytes, expectedBytes, DocumentKey.keyBytes]

end


theorem writeToBuf_count (k : DocumentKey) (n : Nat) :
    writeToBuf countOps k n = n + k.keyBytes.length := by
  cases k <;> simp [writeToBuf, countOps, DocumentKey.keyBytes]

theorem writeKey_sim (tag : Nat) (key : Option DocumentKey) (c : Nat) (buf : List Nat)
    (hc : c = buf.length) :
    writeKeyOrError countOps tag key c = exMap (writeKeyOrError listOps tag key buf) := by
  cases key with
  | none => subst hc; rfl
  | some k =>
    subst hc
    rw [writeKeyOrError_some]
    simp only [writeKeyOrError]
    rw [writeToBuf_count]
    simp [countOps, exMap]
    omega

theorem writeLenLoop_count (bs : List Nat) (i : Nat) (d : Nat) :
    writeLenLoop countOps d bs i = some d := by
  induction bs generalizing i d with
  | nil => rfl
  | cons b bs ih =>
    simp only [writeLenLoop]
    rw [if_pos (show countOps.byteGet d i = 0 from rfl)]
    exact ih (i + 1) d

theorem terminate_count (out d : Nat) :
    terminateDocument countOps out d = .ok (out + (d + 1)) := by
  simp only [terminateDocument]
  rw [show countOps.putU8 d 0 = d + 1 from rfl, writeLenLoop_count]
  rfl

mutual

theorem serValue_sim (v : Value) (key : Option DocumentKey) (c : Nat) (buf : List Nat)
    (hc : c = buf.length) :
    serializeValue countOps key v c = exMap (serializeValue listOps key v buf) := by
  cases v with
  | vBool b =>
    simp only [serializeValue]
    rw [writeKey_sim 0x08 key c buf hc]
    cases hwk : writeKeyOrError listOps 0x08 key buf with
    | error e => obtain ⟨e1, l1⟩ := e; simp [exMap]
    | ok out => simp [exMap, countOps, listOps]
  | vI8 n =>
    simp only [serializeValue]
    rw [writeKey_sim 0x10 key c buf hc]
    cases hwk : writeKeyOrError listOps 0x10 key buf with
    | error e => obtain ⟨e1, l1⟩ := e; simp [exMap]
    | ok out => simp [exMap, countOps, listOps, i32leBytes_length]
  | vI16 n =>
    simp only [serializeValue]
    rw [writeKey_sim 0x10 key c buf hc]
    cases hwk : writeKeyOrError listOps 0x10 key buf with
    | error e => obtain ⟨e1, l1⟩ := e; simp [exMap]
    | ok out => simp [exMap, countOps, listOps, i32leBytes_length]
  | vI32 n =>
    simp only [serializeValue]
    rw [writeKey_sim 0x10 key c buf hc]
    cases hwk : writeKeyOrError listOps 0x10 key buf with
    | error e => obtain ⟨e1, l1⟩ := e; simp [exMap]
    | ok out => simp [exMap, countOps, listOps, i32leBytes_length]
  | vI64 n =>
    simp only [serializeValue]
    rw [writeKey_sim 0x12 key c buf hc]
    cases hwk : writeKeyOrError listOps 0x12 key buf with
    | error e => obtain ⟨e1, l1⟩ := e; simp [exMap]
    | ok out => simp [exMap, countOps, listOps, i64leBytes_length]
  | vF32 bits =>
    simp only [serializeValue]
    rw [writeKey_sim 0x01 key c buf hc]
    cases hwk : writeKeyOrError listOps 0x01 key buf with
    | error e => obtain ⟨e1, l1⟩ := e; simp [exMap]
    | ok out => simp [exMap, countOps, listOps, leBytes64_length]
  | vF64 bits =>
    simp only [serializeValue]
    rw [writeKey_sim 0x01 key c buf hc]
    cases hwk : writeKeyOrError listOps 0x01 key buf with
    | error e => obtain ⟨e1, l1⟩ := e; simp [exMap]
    | ok out => simp [exMap, countOps, listOps, leBytes64_length]
  | vU8 n => subst hc; simp [serializeValue, exMap]
  | vU16 n => subst hc; simp [serializeValue, exMap]
  | vU32 n => subst hc; simp [serializeValue, exMap]
  | vU64 n => subst hc; simp [serializeValue, exMap]
  | vChar ch => subst hc; simp [serializeValue, exMap]
  | vNone =>
    simp only [serializeValue]
    rw [writeKey_sim 0x0A key c buf hc]
    cases hwk : writeKeyOrError listOps 0x0A key buf with
    | error e => obtain ⟨e1, l1⟩ := e; simp [exMap]
    | ok out => simp [exMap]
  | vStr s =>
    simp only [serializeValue]
    rw [writeKey_sim 0x02 key c buf hc]
    cases hwk : writeKeyOrError listOps 0x02 key buf with
    | error e => obtain ⟨e1, l1⟩ := e; simp [exMap]
    | ok out =>
      by_cases hle : s.length + 1 ≤ 2147483647
      · simp [hle, exMap, countOps, listOps, i32leBytes_length]
        omega
      · simp [hle, exMap]
  | vBytes bs =>
    simp only [serializeValue]
    rw [writeKey_sim 0x05 key c buf hc]
    cases hwk : writeKeyOrError listOps 0x05 key buf with
    | error e => obtain ⟨e1, l1⟩ := e; simp [exMap]
    | ok out =>
      by_cases hle : bs.length ≤ 2147483647
      · simp [hle, exMap, countOps, listOps, i32leBytes_length]
        omega
      · simp [hle, exMap]
  | vDoc fields =>
    cases key with
    | none =>
      simp only [serializeValue]
      rw [startDocument_list, show startDocument countOps c = (c, 4) from rfl]
      simp only
      rw [serFields_sim fields 4 [0, 0, 0, 0] rfl]
      cases hsf : serializeFields listOps fields [0, 0, 0, 0] with
      | error e =>
        obtain ⟨e1, l1⟩ := e
        simp [exMap, hc]
      | ok doc1 =>
        simp only [exMap]
        have hdoc1 := serFields_ok fields [0, 0, 0, 0] doc1 hsf
        rw [show ([0, 0, 0, 0] : List Nat) ++ fieldsBytes fields =
          0 :: 0 :: 0 :: 0 :: fieldsBytes fields from rfl] at hdoc1
        rw [hdoc1, terminate_list, terminate_count]
        simp [exMap, mkDocBytes, leBytes32, hc]
    | some k =>
      simp only [serializeValue, writeKeyOrError_some]
      rw [show writeKeyOrError countOps 0x03 (some k) c =
        .ok (c + (2 + k.keyBytes.length)) by
          simp only [writeKeyOrError]
          rw [writeToBuf_count]
          simp [countOps]
          omega]
      simp only [exMap]
      rw [startDocument_list,
        show startDocument countOps (c + (2 + k.keyBytes.length)) =
          (c + (2 + k.keyBytes.length), 4) from rfl]
      simp only
      rw [serFields_sim fields 4 [0, 0, 0, 0] rfl]
      cases hsf : serializeFields listOps fields [0, 0, 0, 0] with
      | error e =>
        obtain ⟨e1, l1⟩ := e
        simp [exMap, hc]
        omega
      | ok doc1 =>
        simp only [exMap]
        have hdoc1 := serFields_ok fields [0, 0, 0, 0] doc1 hsf
        rw [show ([0, 0, 0, 0] : List Nat) ++ fieldsBytes fields =
          0 :: 0 :: 0 :: 0 :: fieldsBytes fields from rfl] at hdoc1
        rw [hdoc1, terminate_list, terminate_count]
        simp [exMap, mkDocBytes, leBytes32, hc]
        omega
  | vArr elems =>
    cases key with
    | none =>
      simp only [serializeValue]
      rw [startDocument_list, show startDocument countOps c = (c, 4) from rfl]
      simp only
      rw [serElems_sim 0 elems 4 [0, 0, 0, 0] rfl]
      cases hsf : serializeElems listOps 0 elems [0, 0, 0, 0] with
      | error e =>
        obtain ⟨e1, l1⟩ := e
        simp [exMap, hc]
      | ok doc1 =>
        simp only [exMap]
        have hdoc1 := serElems_ok 0 elems [0, 0, 0, 0] doc1 hsf
        rw [show ([0, 0, 0, 0] : List Nat) ++ elemsBytes 0 elems =
          0 :: 0 :: 0 :: 0 :: elemsBytes 0 elems from rfl] at hdoc1
        rw [hdoc1, terminate_list, terminate_count]
        simp [exMap, mkDocBytes, leBytes32, hc]
    | some k =>
      simp only [serializeValue, writeKeyOrError_some]
      rw [show writeKeyOrError countOps 0x04 (some k) c =
        .ok (c + (2 + k.keyBytes.length)) by
          simp only [writeKeyOrError]
          rw [writeToBuf_count]
          simp [countOps]
          omega]
      simp only [exMap]
      rw [startDocument_list,
        show startDocument countOps (c + (2 + k.keyBytes.length)) =
          (c + (2 + k.keyBytes.length), 4) from rfl]
      simp only
      rw [serElems_sim 0 elems 4 [0, 0, 0, 0] rfl]
      cases hsf : serializeElems listOps 0 elems [0, 0, 0, 0] with
      | error e =>
        obtain ⟨e1, l1⟩ := e
        simp [exMap, hc]
        omega
      | ok doc1 =>
        simp only [exMap]
        have hdoc1 := serElems_ok 0 elems [0, 0, 0, 0] doc1 hsf
        rw [show ([0, 0, 0, 0] : List Nat) ++ elemsBytes 0 elems =
          0 :: 0 :: 0 :: 0 :: elemsBytes 0 elems from rfl] at hdoc1
        rw [hdoc1, terminate_list, terminate_count]
        simp [exMap, mkDocBytes, leBytes32, hc]
        omega

theorem serFields_sim (fs : List (List Nat × Value)) (c : Nat) (doc : List Nat)
    (hc : c = doc.length) :
    serializeFields countOps fs c = exMap (serializeFields listOps fs doc) := by
  cases fs with
  | nil => subst hc; rfl
  | cons p fs =>
    obtain ⟨k, v⟩ := p
    simp only [serializeFields]
    rw [serValue_sim v (some (.str k)) c doc hc]
    cases hsv : serializeValue listOps (some (.str k)) v doc with
    | error e =>
      obtain ⟨e1, l1⟩ := e
      simp [exMap]
    | ok doc1 =>
      simp only [exMap]
      exact serFields_sim fs doc1.length doc1 rfl

theorem serElems_sim (idx : Nat) (es : List Value) (c : Nat) (doc : List Nat)
    (hc : c = doc.length) :
    serializeElems countOps idx es c = exMap (serializeElems listOps idx es doc) := by
  cases es with
  | nil => subst hc; rfl
  | cons v es =>
    simp only [serializeElems]
    rw [serValue_sim v (some (.int idx)) c doc hc]
    cases hsv : serializeValue listOps (some (.int idx)) v doc with
    | error e =>
      obtain ⟨e1, l1⟩ := e
      simp [exMap]
    | ok doc1 =>
      simp only [exMap]
      exact serElems_sim (idx + 1) es doc1.length doc1 rfl

end

/-! ## The reserved-length corruption guard never fires -/

mutual

theorem serValue_noassert (v : Value) (key : Option DocumentKey) (buf : List Nat)
    (e : SerErr) (b : List Nat) (h : serializeValue listOps key v buf = .error (e, b)) :
    ¬e = .assertionFailed := by
  cases v with
  | vBool bb =>
    cases key with
    | none =>
      simp [serializeValue, writeKeyOrError_none] at h
      obtain ⟨he, -⟩ := h
      subst he
      simp
    | some k => simp [serializeValue, writeKeyOrError_some] at h
  | vI8 n =>
    cases key with
    | none =>
      simp [serializeValue, writeKeyOrError_none] at h
      obtain ⟨he, -⟩ := h
      subst he
      simp
    | some k => simp [serializeValue, writeKeyOrError_some] at h
  | vI16 n =>
    cases key with
    | none =>
      simp [serializeValue, writeKeyOrError_none] at h
      obtain ⟨he, -⟩ := h
      subst he
      simp
    | some k => simp [serializeValue, writeKeyOrError_some] at h
  | vI32 n =>
    cases key with
    | none =>
      simp [serializeValue, writeKeyOrError_none] at h
      obtain ⟨he, -⟩ := h
      subst he
      simp
    | some k => simp [serializeValue, writeKeyOrError_some] at h
  | vI64 n =>
    cases key with
    | none =>
      simp [serializeValue, writeKeyOrError_none] at h
      obtain ⟨he, -⟩ := h
      subst he
      simp
    | some k => simp [serializeValue, writeKeyOrError_some] at h
  | vF32 bits =>
    cases key with
    | none =>
      simp [serializeValue, writeKeyOrError_none] at h
      obtain ⟨he, -⟩ := h
      subst he
      simp
    | some k => simp [serializeValue, writeKeyOrError_some] at h
  | vF64 bits =>
    cases key with
    | none =>
      simp [serializeValue, writeKeyOrError_none] at h
      obtain ⟨he, -⟩ := h
      subst he
      simp
    | some k => simp [serializeValue, writeKeyOrError_some] at h
  | vU8 n =>
    simp [serializeValue] at h
    obtain ⟨he, -⟩ := h
    subst he
    simp
  | vU16 n =>
    simp [serializeValue] at h
    obtain ⟨he, -⟩ := h
    subst he
    simp
  | vU32 n =>
    simp [serializeValue] at h
    obtain ⟨he, -⟩ := h
    subst he
    simp
  | vU64 n =>
    simp [serializeValue] at h
    obtain ⟨he, -⟩ := h
    subst he
    simp
  | vChar ch =>
    simp [serializeValue] at h
    obtain ⟨he, -⟩ := h
    subst he
    simp
  | vNone =>
    cases key with
    | none =>
      simp [serializeValue, writeKeyOrError_none] at h
      obtain ⟨he, -⟩ := h
      subst he
      simp
    | some k => simp [serializeValue, writeKeyOrError_some] at h
  | vStr s =>
    cases key with
    | none =>
      simp [serializeValue, writeKeyOrError_none] at h
      obtain ⟨he, -⟩ := h
      subst he
      simp
    | some k =>
      simp only [serializeValue, writeKeyOrError_some] at h
      by_cases hle : s.length + 1 ≤ 2147483647
      · rw [if_pos hle] at h
        simp at h
      · rw [if_neg hle] at h
        simp at h
        obtain ⟨he, -⟩ := h
        subst he
        simp
  | vBytes bs =>
    cases key with
    | none =>
      simp [serializeValue, writeKeyOrError_none] at h
      obtain ⟨he, -⟩ := h
      subst he
      simp
    | some k =>
      simp only [serializeValue, writeKeyOrError_some] at h
      by_cases hle : bs.length ≤ 2147483647
      · rw [if_pos hle] at h
        simp at h
      · rw [if_neg hle] at h
        simp at h
        obtain ⟨he, -⟩ := h
        subst he
        simp
  | vDoc fields =>
    cases key with
    | none =>
      simp only [serializeValue, startDocument_list] at h
      cases hsf : serializeFields listOps fields [0, 0, 0, 0] with
      | error ef =>
        obtain ⟨e1, l1⟩ := ef
        simp only [hsf] at h
        simp at h
        obtain ⟨he, -⟩ := h
        subst he
        exact serFields_noassert fields [0, 0, 0, 0] e1 l1 hsf
      | ok doc1 =>
        simp only [hsf] at h
        have hdoc1 := serFields_ok fields [0, 0, 0, 0] doc1 hsf
        rw [show ([0, 0, 0, 0] : List Nat) ++ fieldsBytes fields =
          0 :: 0 :: 0 :: 0 :: fieldsBytes fields from rfl] at hdoc1
        rw [hdoc1, terminate_list] at h
        simp at h
    | some k =>
      simp only [serializeValue, writeKeyOrError_some, startDocument_list] at h
      cases hsf : serializeFields listOps fields [0, 0, 0, 0] with
      | error ef =>
        obtain ⟨e1, l1⟩ := ef
        simp only [hsf] at h
        simp at h
        obtain ⟨he, -⟩ := h
        subst he
        exact serFields_noassert fields [0, 0, 0, 0] e1 l1 hsf
      | ok doc1 =>
        simp only [hsf] at h
        have hdoc1 := serFields_ok fields [0, 0, 0, 0] doc1 hsf
        rw [show ([0, 0, 0, 0] : List Nat) ++ fieldsBytes fields =
          0 :: 0 :: 0 :: 0 :: fieldsBytes fields from rfl] at hdoc1
        rw [hdoc1, terminate_list] at h
        simp at h
  | vArr elems =>
    cases key with
    | none =>
      simp only [serializeValue, startDocument_list] at h
      cases hse : serializeElems listOps 0 elems [0, 0, 0, 0] with
      | error ef =>
        obtain ⟨e1, l1⟩ := ef
        simp only [hse] at h
        simp at h
        obtain ⟨he, -⟩ := h
        subst he
        exact serElems_noassert 0 elems [0, 0, 0, 0] e1 l1 hse
      | ok doc1 =>
        simp only [hse] at h
        have hdoc1 := serElems_ok 0 elems [0, 0, 0, 0] doc1 hse
        rw [show ([0, 0, 0, 0] : List Nat) ++ elemsBytes 0 elems =
          0 :: 0 :: 0 :: 0 :: elemsBytes 0 elems from rfl] at hdoc1
        rw [hdoc1, terminate_list] at h
        simp at h
    | some k =>
      simp only [serializeValue, writeKeyOrError_some, startDocument_list] at h
      cases hse : serializeElems listOps 0 elems [0, 0, 0, 0] with
      | error ef =>
        obtain ⟨e1, l1⟩ := ef
        simp only [hse] at h
        simp at h
        obtain ⟨he, -⟩ := h
        subst he
        exact serElems_noassert 0 elems [0, 0, 0, 0] e1 l1 hse
      | ok doc1 =>
        simp only [hse] at h
        have hdoc1 := serElems_ok 0 elems [0, 0, 0, 0] doc1 hse
        rw [show ([0, 0, 0, 0] : List Nat) ++ elemsBytes 0 elems =
          0 :: 0 :: 0 :: 0 :: elemsBytes 0 elems from rfl] at hdoc1
        rw [hdoc1, terminate_list] at h
        simp at h

theorem serFields_noassert (fs : List (List Nat × Value)) (doc : List Nat)
    (e : SerErr) (b : List Nat) (h : serializeFields listOps fs doc = .error (e, b)) :
    ¬e = .assertionFailed := by
  cases fs with
  | nil => simp [serializeFields] at h
  | cons p fs =>
    obtain ⟨k, v⟩ := p
    simp only [serializeFields] at h
    cases hsv : serializeValue listOps (some (.str k)) v doc with
    | error ev =>
      obtain ⟨e1, l1⟩ := ev
      simp only [hsv] at h
      simp at h
      obtain ⟨he, -⟩ := h
      subst he
      exact serValue_noassert v (some (.str k)) doc e1 l1 hsv
    | ok doc1 =>
      simp only [hsv] at h
      exact serFields_noassert fs doc1 e b h

theorem serElems_noassert (idx : Nat) (es : List Value) (doc : List Nat)
    (e : SerErr) (b : List Nat) (h : serializeElems listOps idx es doc = .error (e, b)) :
    ¬e = .assertionFailed := by
  cases es with
  | nil => simp [serializeElems] at h
  | cons v es =>
    simp only [serializeElems] at h
    cases hsv : serializeValue listOps (some (.int idx)) v doc with
    | error ev =>
      obtain ⟨e1, l1⟩ := ev
      simp only [hsv] at h
      simp at h
      obtain ⟨he, -⟩ := h
      subst he
      exact serValue_noassert v (some (.int idx)) doc e1 l1 hsv
    | ok doc1 =>
      simp only [hsv] at h
      exact serElems_noassert (idx + 1) es doc1 e b h

end

/-! ## Length-prefix shape of every produced document -/

mutual

theorem docSpansV_shape (v : Value) : ∀ d ∈ docSpansV v, ∃ c, d = mkDocBytes c := by
  cases v with
  | vDoc fields =>
    intro d hd
    simp only [docSpansV, List.mem_cons] at hd
    rcases hd with hd | hd
    · exact ⟨_, hd⟩
    · exact docSpansFields_shape fields d hd
  | vArr elems =>
    intro d hd
    simp only [docSpansV, List.mem_cons] at hd
    rcases hd with hd | hd
    · exact ⟨_, hd⟩
    · exact docSpansElems_shape elems d hd
  | vBool b => intro d hd; simp [docSpansV] at hd
  | vI8 n => intro d hd; simp [docSpansV] at hd
  | vI16 n => intro d hd; simp [docSpansV] at hd
  | vI32 n => intro d hd; simp [docSpansV] at hd
  | vI64 n => intro d hd; simp [docSpansV] at hd
  | vF32 b => intro d hd; simp [docSpansV] at hd
  | vF64 b => intro d hd; simp [docSpansV] at hd
  | vU8 n => intro d hd; simp [docSpansV] at hd
  | vU16 n => intro d hd; simp [docSpansV] at hd
  | vU32 n => intro d hd; simp [docSpansV] at hd
  | vU64 n => intro d hd; simp [docSpansV] at hd
  | vChar c => intro d hd; simp [docSpansV] at hd
  | vNone => intro d hd; simp [docSpansV] at hd
  | vStr s => intro d hd; simp [docSpansV] at hd
  | vBytes bs => intro d hd; simp [docSpansV] at hd

theorem docSpansFields_shape (fs : List (List Nat × Value)) :
    ∀ d ∈ docSpansFields fs, ∃ c, d = mkDocBytes c := by
  cases fs with
  | nil => intro d hd; simp [docSpansFields] at hd
  | cons p fs =>
    obtain ⟨k, v⟩ := p
    intro d hd
    simp only [docSpansFields, List.mem_append] at hd
    rcases hd with hd | hd
    · exact docSpansV_shape v d hd
    · exact docSpansFields_shape fs d hd

theorem docSpansElems_shape (es : List Value) :
    ∀ d ∈ docSpansElems es, ∃ c, d = mkDocBytes c := by
  cases es with
  | nil => intro d hd; simp [docSpansElems] at hd
  | cons v es =>
    intro d hd
    simp only [docSpansElems, List.mem_append] at hd
    rcases hd with hd | hd
    · exact docSpansV_shape v d hd
    · exact docSpansElems_shape es d hd

end

theorem mkDocBytes_length (c : List Nat) : (mkDocBytes c).length = c.length + 5 := by
  simp [mkDocBytes, leBytes32]

theorem mkDocBytes_header (c : List Nat) (h : c.length + 5 < 2147483648) :
    int32FromLe ((mkDocBytes c).take 4) = ((mkDocBytes c).length : Int) := by
  have h4 : (mkDocBytes c).take 4 = leBytes32 (c.length + 5) := by
    simp only [mkDocBytes]
    rw [show leBytes32 (c.length + 5) ++ c ++ [0] =
      leBytes32 (c.length + 5) ++ (c ++ [0]) by simp]
    exact List.take_left' (leBytes32_length _)
  rw [h4, mkDocBytes_length]
  simp only [int32FromLe, leToNat_leBytes32]
  rw [Nat.mod_eq_of_lt (by omega)]
  rw [if_pos (by omega)]

/-! ## Typed deserialization of the expected tape -/

mutual

theorem tyEq_sound (a b : Ty) (h : tyEq a b = true) : a = b := by
  cases a with
  | tBool => cases b <;> first | rfl | simp [tyEq] at h
  | tI8 => cases b <;> first | rfl | simp [tyEq] at h
  | tI16 => cases b <;> first | rfl | simp [tyEq] at h
  | tI32 => cases b <;> first | rfl | simp [tyEq] at h
  | tI64 => cases b <;> first | rfl | simp [tyEq] at h
  | tF64 => cases b <;> first | rfl | simp [tyEq] at h
  | tStr => cases b <;> first | rfl | simp [tyEq] at h
  | tBytes => cases b <;> first | rfl | simp [tyEq] at h
  | tArr a1 =>
    cases b with
    | tArr b1 => rw [tyEq_sound a1 b1 (by simpa [tyEq] using h)]
    | tBool => simp [tyEq] at h
    | tI8 => simp [tyEq] at h
    | tI16 => simp [tyEq] at h
    | tI32 => simp [tyEq] at h
    | tI64 => simp [tyEq] at h
    | tF64 => simp [tyEq] at h
    | tStr => simp [tyEq] at h
    | tBytes => simp [tyEq] at h
    | tDoc fb => simp [tyEq] at h
  | tDoc fa =>
    cases b with
    | tDoc fb => rw [tyFieldsEq_sound fa fb (by simpa [tyEq] using h)]
    | tBool => simp [tyEq] at h
    | tI8 => simp [tyEq] at h
    | tI16 => simp [tyEq] at h
    | tI32 => simp [tyEq] at h
    | tI64 => simp [tyEq] at h
    | tF64 => simp [tyEq] at h
    | tStr => simp [tyEq] at h
    | tBytes => simp [tyEq] at h
    | tArr b1 => simp [tyEq] at h

theorem tyFieldsEq_sound (fa fb : List (List Nat × Ty)) (h : tyFieldsEq fa fb = true) :
    fa = fb := by
  cases fa with
  | nil =>
    cases fb with
    | nil => rfl
    | cons q fb => simp [tyFieldsEq] at h
  | cons p fa =>
    obtain ⟨k1, t1⟩ := p
    cases fb with
    | nil => simp [tyFieldsEq] at h
    | cons q fb =>
      obtain ⟨k2, t2⟩ := q
      simp only [tyFieldsEq, Bool.and_eq_true, beq_iff_eq] at h
      obtain ⟨⟨hk, ht⟩, hrest⟩ := h
      rw [hk, tyEq_sound t1 t2 ht, tyFieldsEq_sound fa fb hrest]

end

mutual

theorem decodeValue (v : Value) (rest : List Tape) (fuel : Nat)
    (hv : rtOk v = true) (hf : (tapeCore v).length < fuel) :
    deserialize fuel (tyOf v) (tapeCore v ++ rest) = .ok (v, rest) := by
  obtain ⟨f, rfl⟩ : ∃ f, fuel = f + 1 := ⟨fuel - 1, by omega⟩
  cases v with
  | vBool b =>
    simp [tapeCore, tyOf, deserialize, visitBool, Except.map]
  | vI8 n =>
    simp only [rtOk, Bool.and_eq_true, decide_eq_true_eq] at hv
    simp [tapeCore, tyOf, deserialize, visitI32V, hv, Except.map]
  | vI16 n =>
    simp only [rtOk, Bool.and_eq_true, decide_eq_true_eq] at hv
    simp [tapeCore, tyOf, deserialize, visitI32V, hv, Except.map]
  | vI32 n =>
    simp [tapeCore, tyOf, deserialize, visitI32V, Except.map]
  | vI64 n =>
    simp [tapeCore, tyOf, deserialize, visitI64V, Except.map]
  | vF32 bits => simp [rtOk] at hv
  | vF64 bits =>
    simp [tapeCore, tyOf, deserialize, visitF64V, Except.map]
  | vU8 n => simp [rtOk] at hv
  | vU16 n => simp [rtOk] at hv
  | vU32 n => simp [rtOk] at hv
  | vU64 n => simp [rtOk] at hv
  | vChar c => simp [rtOk] at hv
  | vNone => simp [rtOk] at hv
  | vStr s =>
    simp [tapeCore, tyOf, deserialize, visitStrV, Except.map]
  | vBytes bs =>
    simp [tapeCore, tyOf, deserialize, visitBytesV, Except.map]
  | vDoc fields =>
    simp only [rtOk] at hv
    have hsplit : tapeCore (.vDoc fields) ++ rest =
        .documentStart :: (tapeFields fields ++ .documentEnd :: rest) := by
      simp [tapeCore]
    rw [hsplit]
    have hlen : (tapeCore (.vDoc fields)).length = (tapeFields fields).length + 2 := by
      simp [tapeCore]
    simp only [tyOf, deserialize]
    rw [decodeFields fields rest f hv (by omega)]
  | vArr elems =>
    cases elems with
    | nil =>
      simp only [rtOk] at hv
      obtain ⟨f2, rfl⟩ : ∃ f2, f = f2 + 1 := by
        have : (tapeCore (.vArr [])).length = 2 := by simp [tapeCore, tapeElems]
        exact ⟨f - 1, by omega⟩
      simp [tapeCore, tapeElems, tyOf, deserialize, visitSeqElems]
    | cons v0 es =>
      simp only [rtOk] at hv
      have hsplit : tapeCore (.vArr (v0 :: es)) ++ rest =
          .arrayStart :: (tapeElems 0 (v0 :: es) ++ .documentEnd :: rest) := by
        simp [tapeCore]
      rw [hsplit]
      have hlen : (tapeCore (.vArr (v0 :: es))).length = (tapeElems 0 (v0 :: es)).length + 2 := by
        simp [tapeCore]
      simp only [tyOf, deserialize]
      rw [decodeElems (v0 :: es) (tyOf v0) 0 rest f hv (by omega)]

theorem decodeFields (fs : List (List Nat × Value)) (rest : List Tape) (fuel : Nat)
    (hfs : rtOkFields fs = true) (hfuel : (tapeFields fs).length + 1 ≤ fuel) :
    visitMapFields fuel (tyOfFields fs) (tapeFields fs ++ .documentEnd :: rest) =
      .ok (fs, rest) := by
  obtain ⟨f, rfl⟩ : ∃ f, fuel = f + 1 := ⟨fuel - 1, by omega⟩
  cases fs with
  | nil =>
    simp [tapeFields, tyOfFields, visitMapFields]
  | cons p fs =>
    obtain ⟨k, v⟩ := p
    simp only [rtOkFields, Bool.and_eq_true] at hfs
    obtain ⟨⟨hk, hv⟩, hfs⟩ := hfs
    have hlen : (tapeFields ((k, v) :: fs)).length =
        (tapeCore v).length + (tapeFields fs).length + 1 := by
      simp [tapeFields]
    have hsplit : tapeFields ((k, v) :: fs) ++ .documentEnd :: rest =
        .key k :: (tapeCore v ++ (tapeFields fs ++ .documentEnd :: rest)) := by
      simp [tapeFields]
    rw [hsplit]
    simp only [tyOfFields, visitMapFields, if_pos rfl]
    rw [decodeValue v (tapeFields fs ++ .documentEnd :: rest) f hv (by omega)]
    simp [decodeFields fs rest f hfs (by omega)]

theorem decodeElems (es : List Value) (ty : Ty) (idx : Nat) (rest : List Tape) (fuel : Nat)
    (he : rtOkElems ty es = true) (hfuel : (tapeElems idx es).length + 1 ≤ fuel) :
    visitSeqElems fuel ty (tapeElems idx es ++ .documentEnd :: rest) =
      .ok (es, .documentEnd :: rest) := by
  obtain ⟨f, rfl⟩ : ∃ f, fuel = f + 1 := ⟨fuel - 1, by omega⟩
  cases es with
  | nil =>
    simp [tapeElems, visitSeqElems]
  | cons v es =>
    simp only [rtOkElems, Bool.and_eq_true] at he
    obtain ⟨⟨hv, hty⟩, hes⟩ := he
    have hty' := tyEq_sound (tyOf v) ty hty
    subst hty'
    have hlen : (tapeElems idx (v :: es)).length =
        (tapeCore v).length + (tapeElems (idx + 1) es).length + 1 := by
      simp [tapeElems]
    have hsplit : tapeElems idx (v :: es) ++ .documentEnd :: rest =
        .key (natToDecimal idx) ::
          (tapeCore v ++ (tapeElems (idx + 1) es ++ .documentEnd :: rest)) := by
      simp [tapeElems]
    rw [hsplit]
    simp only [visitSeqElems]
    rw [decodeValue v (tapeElems (idx + 1) es ++ .documentEnd :: rest) f hv (by omega)]
    simp [decodeElems es (tyOf v) (idx + 1) rest f hes (by omega)]

end

/-! ## Claim theorems -/

/-- C1 (amended): for every well-formed value whose top-level shape is a
struct/document, decoding the bytes produced by encoding it yields the value
back: `from_bytes (to_string v) = v`.  (The original claim, quantified over
every two-directional type, fails for top-level sequences — see the
counterexample theorem.)  `rtOk` restricts to the round-trippable shapes
(machine-range scalars, UTF-8 strings and keys without embedded NUL,
homogeneous sequences) and the total size must fit the 32-bit length
header. -/
theorem c1_round_trip_documents (fields : List (List Nat × Value)) (bs : List Nat)
    (hrt : rtOk (.vDoc fields) = true)
    (henc : toStringBytes (.vDoc fields) = .ok bs)
    (hsize : bs.length < 4294967296) :
    fromBytes (tyOf (.vDoc fields)) bs = some (.ok (.vDoc fields)) := by
  -- extract the real-pass success from `toStringBytes`
  have hlist : serializeValue listOps none (.vDoc fields) [] = .ok bs := by
    simp only [toStringBytes] at henc
    cases hsso : serialisedSizeOf (.vDoc fields) with
    | error e => rw [hsso] at henc; simp at henc
    | ok n =>
      rw [hsso] at henc
      cases hl : serializeValue listOps none (.vDoc fields) [] with
      | error e =>
        obtain ⟨e1, l1⟩ := e
        rw [hl] at henc
        simp at henc
      | ok l =>
        rw [hl] at henc
        simp at henc
        rw [henc]
  have hbs : bs = mkDocBytes (fieldsBytes fields) := by
    have := serValue_ok (.vDoc fields) none [] bs hlist
    simpa [expectedBytes, valueBody] using this
  subst hbs
  simp only [rtOk] at hrt
  -- the tape of the encoded document
  have hL : (mkDocBytes (fieldsBytes fields)).length = (fieldsBytes fields).length + 5 :=
    mkDocBytes_length _
  have htape : toTape (mkDocBytes (fieldsBytes fields)) = some (tapeCore (.vDoc fields)) := by
    simp only [toTape]
    rw [if_pos (by omega : 4 ≤ (mkDocBytes (fieldsBytes fields)).length)]
    have htake4 : (mkDocBytes (fieldsBytes fields)).take 4 =
        leBytes32 ((fieldsBytes fields).length + 5) := by
      simp only [mkDocBytes]
      rw [show leBytes32 ((fieldsBytes fields).length + 5) ++ fieldsBytes fields ++ [0] =
        leBytes32 ((fieldsBytes fields).length + 5) ++ (fieldsBytes fields ++ [0]) by simp]
      exact List.take_left' (leBytes32_length _)
    rw [htake4, leToNat_leBytes32, Nat.mod_eq_of_lt (by omega)]
    rw [if_pos (by omega : 4 ≤ (fieldsBytes fields).length + 5 ∧
      (fieldsBytes fields).length + 5 ≤ (mkDocBytes (fieldsBytes fields)).length)]
    have hdrop4 : (mkDocBytes (fieldsBytes fields)).drop 4 = fieldsBytes fields ++ [0] := by
      simp only [mkDocBytes]
      rw [show leBytes32 ((fieldsBytes fields).length + 5) ++ fieldsBytes fields ++ [0] =
        leBytes32 ((fieldsBytes fields).length + 5) ++ (fieldsBytes fields ++ [0]) by simp]
      exact List.drop_left' (leBytes32_length _)
    rw [hdrop4]
    have htakeRest : (fieldsBytes fields ++ [0]).take ((fieldsBytes fields).length + 5 - 4) =
        fieldsBytes fields ++ [0] := by
      rw [List.take_of_length_le (by simp)]
    rw [htakeRest]
    rw [show (fieldsBytes fields ++ [0] : List Nat) = fieldsBytes fields ++ (0 :: []) from rfl]
    rw [scanFields fields [0] hrt, scan_docEnd, toTapeLoop_nil]
    simp [tapeCore]
  simp only [fromBytes, htape]
  have hdec := decodeValue (.vDoc fields) [] (2 * (tapeCore (.vDoc fields)).length + 2)
    (by simp [rtOk, hrt]) (by omega)
  rw [show tapeCore (.vDoc fields) ++ ([] : List Tape) = tapeCore (.vDoc fields) by simp] at hdec
  simp [hdec, Except.map]

/-- C1 (witness): the document `{"a": 5}` round-trips through its concrete
12-byte encoding. -/
theorem c1_round_trip_documents_witness :
    fromBytes (tyOf (.vDoc [([97], .vI32 5)])) [12, 0, 0, 0, 16, 97, 0, 5, 0, 0, 0, 0] =
      some (.ok (.vDoc [([97], .vI32 5)])) :=
  c1_round_trip_documents [([97], .vI32 5)] [12, 0, 0, 0, 16, 97, 0, 5, 0, 0, 0, 0]
    (by rfl) (by rfl) (by decide)

/-- C1 (counterexample): the round-trip property fails as stated.  A
top-level sequence value (type descriptor `tArr tI32 = tyOf (vArr [])`, a
type supporting both directions) encodes successfully to the 5-byte empty
array document, but decoding those bytes fails with
`MalformedMapMissingKey` instead of yielding the value: `to_tape` emits the
outermost marker as `DocumentStart`, which `deserialize_seq` does not skip
(it only skips `ArrayStart`), so `SeqAccess` meets it where a `Key` or
`DocumentEnd` was expected. -/
theorem c1_top_level_seq_counterexample :
    toStringBytes (.vArr []) = .ok [5, 0, 0, 0, 0] ∧
    fromBytes (tyOf (.vArr [])) [5, 0, 0, 0, 0] = some (.error .malformedMapMissingKey) ∧
    fromBytes (tyOf (.vArr [])) [5, 0, 0, 0, 0] ≠ some (.ok (.vArr [])) := by
  refine ⟨rfl, rfl, ?_⟩
  intro h
  rw [show fromBytes (tyOf (.vArr [])) [5, 0, 0, 0, 0] =
    some (.error .malformedMapMissingKey) from rfl] at h
  simp at h

/-- C2: the counting-sink pass returns exactly the number of bytes the real
`BytesMut` pass appends, and the two passes fail with the same error on the
same values: `serialised_size_of v = (to_string v).map length` as `Except`
values. -/
theorem c2_size_consistency (v : Value) :
    serialisedSizeOf v = (toStringBytes v).map List.length := by
  have hsim := serValue_sim v none 0 [] rfl
  cases hlist : serializeValue listOps none v [] with
  | error e =>
    obtain ⟨e1, l1⟩ := e
    rw [hlist] at hsim
    simp only [exMap] at hsim
    simp [serialisedSizeOf, toStringBytes, hsim, hlist, Except.map]
  | ok l =>
    rw [hlist] at hsim
    simp only [exMap] at hsim
    simp [serialisedSizeOf, toStringBytes, hsim, hlist, Except.map]

/-- C3: every encoded output is a document span, and every document span the
serializer produces (the top-level document and every nested
document/array) starts with a 4-byte little-endian integer equal to the
byte count from the length field itself through the terminating `0x00`,
inclusive — whenever that count fits an `i32`. -/
theorem c3_length_header (v : Value) (bs : List Nat) (h : toStringBytes v = .ok bs) :
    bs ∈ docSpansV v ∧
    ∀ d ∈ docSpansV v, d.length < 2147483648 → int32FromLe (d.take 4) = (d.length : Int) := by
  constructor
  · have hlist : serializeValue listOps none v [] = .ok bs := by
      simp only [toStringBytes] at h
      cases hsso : serialisedSizeOf v with
      | error e => rw [hsso] at h; simp at h
      | ok n =>
        rw [hsso] at h
        cases hl : serializeValue listOps none v [] with
        | error e =>
          obtain ⟨e1, l1⟩ := e
          rw [hl] at h
          simp at h
        | ok l =>
          rw [hl] at h
          simp at h
          rw [h]
    have hv := serValue_ok v none [] bs hlist
    simp only [expectedBytes, List.nil_append] at hv
    cases v with
    | vDoc fields =>
      subst hv
      simp [docSpansV, valueBody]
    | vArr elems =>
      subst hv
      simp [docSpansV, valueBody]
    | vBool b => simp [serializeValue, writeKeyOrError_none] at hlist
    | vI8 n => simp [serializeValue, writeKeyOrError_none] at hlist
    | vI16 n => simp [serializeValue, writeKeyOrError_none] at hlist
    | vI32 n => simp [serializeValue, writeKeyOrError_none] at hlist
    | vI64 n => simp [serializeValue, writeKeyOrError_none] at hlist
    | vF32 bits => simp [serializeValue, writeKeyOrError_none] at hlist
    | vF64 bits => simp [serializeValue, writeKeyOrError_none] at hlist
    | vU8 n => simp [serializeValue] at hlist
    | vU16 n => simp [serializeValue] at hlist
    | vU32 n => simp [serializeValue] at hlist
    | vU64 n => simp [serializeValue] at hlist
    | vChar c => simp [serializeValue] at hlist
    | vNone => simp [serializeValue, writeKeyOrError_none] at hlist
    | vStr s => simp [serializeValue, writeKeyOrError_none] at hlist
    | vBytes b2 => simp [serializeValue, writeKeyOrError_none] at hlist
  · intro d hd hlt
    obtain ⟨c, rfl⟩ := docSpansV_shape v d hd
    rw [mkDocBytes_length] at hlt
    exact mkDocBytes_header c hlt

/-- C3 (witness): the document `{"a": {}}` and its concrete 13-byte
encoding, whose nested empty document span is `05 00 00 00 00`. -/
theorem c3_length_header_witness :
    [13, 0, 0, 0, 3, 97, 0, 5, 0, 0, 0, 0, 0] ∈ docSpansV (.vDoc [([97], .vDoc [])]) ∧
    ∀ d ∈ docSpansV (.vDoc [([97], .vDoc [])]), d.length < 2147483648 →
      int32FromLe (d.take 4) = (d.length : Int) :=
  c3_length_header (.vDoc [([97], .vDoc [])]) [13, 0, 0, 0, 3, 97, 0, 5, 0, 0, 0, 0, 0] (by rfl)

/-- C4 (code bug): the tape builder does NOT fail on an unsupported type
tag; the `_ => {}` arm silently skips it, advancing only past the tag byte
and not its payload, desynchronising the scan.  Concretely, a document
holding a single ObjectId element (tag `0x07`, key `"k"`, 12 payload bytes)
scans "successfully": the tag and key bytes are consumed one at a time by
the skip arm, the key's NUL terminator is misread as a `DocumentEnd`, and
the result is a garbage tape rather than the fatal malformed-input error
the specification requires. -/
theorem c4_unsupported_tag_silently_skipped :
    toTape [20, 0, 0, 0, 7, 107, 0,
        255, 255, 255, 255, 255, 255, 255, 255, 255, 255, 255, 255, 0] =
      some [.documentStart, .documentEnd, .documentEnd] := rfl

/-- C5: serializing any unsigned integer (8/16/32/64-bit) or char value
returns `UnsignedIntNotInSpec` and writes nothing, regardless of whether a
key context is available. -/
theorem c5_unsigned_rejected (key : Option DocumentKey) (buf : List Nat) (n : Nat) :
    serializeValue listOps key (.vU8 n) buf = .error (.unsignedIntNotInSpec, buf) ∧
    serializeValue listOps key (.vU16 n) buf = .error (.unsignedIntNotInSpec, buf) ∧
    serializeValue listOps key (.vU32 n) buf = .error (.unsignedIntNotInSpec, buf) ∧
    serializeValue listOps key (.vU64 n) buf = .error (.unsignedIntNotInSpec, buf) ∧
    serializeValue listOps key (.vChar n) buf = .error (.unsignedIntNotInSpec, buf) :=
  ⟨rfl, rfl, rfl, rfl, rfl⟩

/-- C6: serializing any bare primitive (boolean, signed integer, float,
string, bytes, null/none) with no key available returns
`NotSerializingStruct` and leaves the output buffer untouched. -/
theorem c6_keyless_scalar_error (buf : List Nat) (b : Bool) (n : Int) (bits : Nat)
    (s bs : List Nat) :
    serializeValue listOps none (.vBool b) buf = .error (.notSerializingStruct, buf) ∧
    serializeValue listOps none (.vI8 n) buf = .error (.notSerializingStruct, buf) ∧
    serializeValue listOps none (.vI16 n) buf = .error (.notSerializingStruct, buf) ∧
    serializeValue listOps none (.vI32 n) buf = .error (.notSerializingStruct, buf) ∧
    serializeValue listOps none (.vI64 n) buf = .error (.notSerializingStruct, buf) ∧
    serializeValue listOps none (.vF32 bits) buf = .error (.notSerializingStruct, buf) ∧
    serializeValue listOps none (.vF64 bits) buf = .error (.notSerializingStruct, buf) ∧
    serializeValue listOps none (.vStr s) buf = .error (.notSerializingStruct, buf) ∧
    serializeValue listOps none (.vBytes bs) buf = .error (.notSerializingStruct, buf) ∧
    serializeValue listOps none .vNone buf = .error (.notSerializingStruct, buf) :=
  ⟨rfl, rfl, rfl, rfl, rfl, rfl, rfl, rfl, rfl, rfl⟩

/-- C7: the corruption-guard assertion in `terminate_document` never fires:
for every value the serializer can be asked to write, the 4 reserved
placeholder bytes of every sub-buffer are still zero when the length is
patched in, so no run ever ends in the assertion-failure outcome. -/
theorem c7_reserved_bytes_guard (v : Value) (key : Option DocumentKey) (buf b : List Nat) :
    serializeValue listOps key v buf ≠ .error (.assertionFailed, b) := by
  intro h
  exact serValue_noassert v key buf .assertionFailed b h rfl

/-- C7 (witness): the guard conclusion at a concrete input. -/
theorem c7_reserved_bytes_guard_witness :
    serializeValue listOps none (.vDoc []) [] ≠ .error (.assertionFailed, []) :=
  c7_reserved_bytes_guard (.vDoc []) none [] []

/-- C8: a struct with zero fields at top level encodes to exactly the 5
bytes `05 00 00 00 00`. -/
theorem c8_empty_struct_bytes : toStringBytes (.vDoc []) = .ok [5, 0, 0, 0, 0] := rfl

/-- C9: encoding the sequence `["a", "b"]` as a keyed field produces a
nested array document (tag `0x04`) whose two elements carry, in order, the
NUL-terminated decimal keys `"0"` (bytes `48, 0`) and `"1"` (bytes
`49, 0`). -/
theorem c9_array_key_scheme (k buf : List Nat) :
    serializeValue listOps (some (.str k)) (.vArr [.vStr [97], .vStr [98]]) buf =
      .ok (buf ++ 0x04 :: (k ++ 0x00 ::
        [23, 0, 0, 0, 2, 48, 0, 2, 0, 0, 0, 97, 0, 2, 49, 0, 2, 0, 0, 0, 98, 0, 0])) := by
  simp [serializeValue, serializeElems, writeKeyOrError, writeToBuf, startDocument,
    terminateDocument, writeLenLoop, listOps, leBytes32, i32leBytes, natToDecimal, decimalRev]

/-- C10: keyed `i8` and `i16` values are emitted as int32 elements (tag
`0x10`) holding the sign-extended value (`i32leBytes` of the same integer,
i.e. its 32-bit two's complement), and keyed `f32` values are emitted as
double elements (tag `0x01`) holding the widened `f64` bit pattern — the
narrow types get no tags of their own. -/
theorem c10_widening (k : DocumentKey) (buf : List Nat) (n m : Int) (bits : Nat)
    (h1 : -128 ≤ n) (h2 : n < 128) (h3 : -32768 ≤ m) (h4 : m < 32768) :
    serializeValue listOps (some k) (.vI8 n) buf =
      .ok (buf ++ 0x10 :: (k.keyBytes ++ 0x00 :: i32leBytes n)) ∧
    serializeValue listOps (some k) (.vI16 m) buf =
      .ok (buf ++ 0x10 :: (k.keyBytes ++ 0x00 :: i32leBytes m)) ∧
    serializeValue listOps (some k) (.vF32 bits) buf =
      .ok (buf ++ 0x01 :: (k.keyBytes ++ 0x00 :: leBytes64 (f32ToF64bits bits))) := by
  refine ⟨?_, ?_, ?_⟩ <;>
    (cases k <;>
      simp [serializeValue, writeKeyOrError, writeToBuf, DocumentKey.keyBytes, listOps])

/-- C10 (witness): `i8 = -5` (sign-extends to `FB FF FF FF`), `i16 = -300`,
and `f32 = 1.5` (bit pattern `0x3FC00000`, widening to
`0x3FF8000000000000`) at a concrete key. -/
theorem c10_widening_witness :
    serializeValue listOps (some (.str [107])) (.vI8 (-5)) [] =
      .ok ([] ++ 0x10 :: ((DocumentKey.str [107]).keyBytes ++ 0x00 :: i32leBytes (-5))) ∧
    serializeValue listOps (some (.str [107])) (.vI16 (-300)) [] =
      .ok ([] ++ 0x10 :: ((DocumentKey.str [107]).keyBytes ++ 0x00 :: i32leBytes (-300))) ∧
    serializeValue listOps (some (.str [107])) (.vF32 1069547520) [] =
      .ok ([] ++ 0x01 :: ((DocumentKey.str [107]).keyBytes ++ 0x00 ::
        leBytes64 (f32ToF64bits 1069547520))) :=
  c10_widening (.str [107]) [] (-5) (-300) 1069547520
    (by decide) (by decide) (by decide) (by decide)
